import Mathlib

set_option maxHeartbeats 2000000
set_option maxRecDepth 4000

/-!
Shallow embedding of the SKI expression arena in `src/rust/src/arena.rs`
(`mod wasm`), with sequential (single-thread, interleaving-free) semantics.

Machine integers are modelled as `Nat` with explicit `% 2^32` (resp. `% 256`)
where the source wraps or truncates.  Fallible paths (the poison / trap path of
`grow` on reaching the maximum capacity) are modelled with `Option`: `none` is
a trap.  `wasm32::memory_grow` is modelled as always succeeding; the only
failing path kept is the capacity ceiling, which is the deterministic one.

The columnar node table (`kind`, `sym`, `left`, `right`, `hash`, `next`), the
bucket array and the four-slot terminal cache are modelled as total functions
`Nat → Nat`; `initArena` zero-fills the data region, so the functions start
constant.  A point-update `upd` models a single store.
-/

/-- Update of one cell of a column, modelling a single store. -/
def upd (f : Nat → Nat) (i v : Nat) : Nat → Nat :=
  fun j => if j = i then v else f j

/-- Sentinel for "absent" (`EMPTY = 0xffff_ffff` in the source). -/
def EMPTY : Nat := 0xffffffff

/-- Maximum arena capacity (`MAX_CAP = 1 << 27`). -/
def MAX_CAP : Nat := 2 ^ 27

/-- Node kind bytes (`ArenaKind`). -/
def KIND_TERMINAL : Nat := 1
def KIND_NONTERM : Nat := 2
def KIND_CONTINUATION : Nat := 3
def KIND_SUSPENSION : Nat := 4

/-- Combinator symbols (`ArenaSym`). -/
def SYM_S : Nat := 1
def SYM_K : Nat := 2
def SYM_I : Nat := 3

/-- Reduction stages and modes of the iterative reducer. -/
def STAGE_LEFT : Nat := 0
def STAGE_RIGHT : Nat := 1
def MODE_DESCEND : Nat := 0
def MODE_RETURN : Nat := 1

/-- The value `u32::MAX`, used by the source as an unbounded budget. -/
def U32_MAX : Nat := 0xffffffff

/-- Modulus of 32-bit wrapping arithmetic. -/
def M32 : Nat := 2 ^ 32

/-- Sequential state of the arena: header scalars plus the columns.
Offsets, the rings and the resize sequence counter have no sequential
content and are modelled elsewhere (rings) or omitted (offsets). -/
structure Arena where
  capacity : Nat
  bucketMask : Nat
  top : Nat
  kind : Nat → Nat
  sym : Nat → Nat
  left : Nat → Nat
  right : Nat → Nat
  hash : Nat → Nat
  next : Nat → Nat
  buckets : Nat → Nat
  termCache : Nat → Nat

/-- The state written by `init_header(capacity)`: zeroed columns, buckets and
terminal cache seeded to `EMPTY`, `top = 0`, `bucket_mask = capacity - 1`. -/
def initArena (c : Nat) : Arena :=
  { capacity := c
    bucketMask := c - 1
    top := 0
    kind := fun _ => 0
    sym := fun _ => 0
    left := fun _ => 0
    right := fun _ => 0
    hash := fun _ => 0
    next := fun _ => 0
    buckets := fun _ => EMPTY
    termCache := fun _ => EMPTY }

/-- Accessor `kindOf`: 0 when the id is at or beyond the capacity. -/
def kindOf (A : Arena) (n : Nat) : Nat :=
  if n < A.capacity then A.kind n else 0

/-- Accessor `symOf`. -/
def symOf (A : Arena) (n : Nat) : Nat :=
  if n < A.capacity then A.sym n else 0

/-- Accessor `leftOf`. -/
def leftOf (A : Arena) (n : Nat) : Nat :=
  if n < A.capacity then A.left n else 0

/-- Accessor `rightOf`. -/
def rightOf (A : Arena) (n : Nat) : Nat :=
  if n < A.capacity then A.right n else 0

/-- Internal accessor `hash_of_internal`. -/
def hashOfInternal (A : Arena) (n : Nat) : Nat :=
  if n < A.capacity then A.hash n else 0

/-- The hash finalizer `avalanche32` of the source:
`x ^= x >> 16; x *= 0x7feb352d; x ^= x >> 15; x *= 0x846ca68b; x ^= x >> 16`. -/
def avalanche32 (x : Nat) : Nat :=
  let x1 := x ^^^ (x >>> 16)
  let x2 := x1 * 0x7feb352d % M32
  let x3 := x2 ^^^ (x2 >>> 15)
  let x4 := x3 * 0x846ca68b % M32
  x4 ^^^ (x4 >>> 16)

/-- The golden-ratio constant `GOLD = 0x9e37_79b9`. -/
def GOLD : Nat := 0x9e3779b9

/-- Application hash: `mix(a, b) = avalanche32(a ^ b.wrapping_mul(GOLD))`. -/
def mix (a b : Nat) : Nat :=
  avalanche32 (a ^^^ (b * GOLD % M32))

/-- Bucket-chain walk of `allocCons`'s lookup.  The source walks the `next`
chain unboundedly; the embedding carries fuel, and chains reachable in the
sequential semantics are strictly decreasing (proved below), so `top + 1`
fuel always suffices.  The walk stops on `EMPTY`, on an out-of-capacity id
(the source's bounds-check `break`), returns the first id whose kind is
`NonTerm` and whose `(hash, left, right)` matches, and otherwise follows
`next`. -/
def lookupAux (A : Arena) (hval l r : Nat) : Nat → Nat → Option Nat
  | 0, _ => none
  | fuel + 1, cur =>
    if cur = EMPTY then none
    else if A.capacity ≤ cur then none
    else if A.kind cur = KIND_NONTERM ∧ A.hash cur = hval ∧ A.left cur = l ∧ A.right cur = r then
      some cur
    else lookupAux A hval l r fuel (A.next cur)

/-- Rebuild of the bucket array during `grow`: iterate ids `0, 1, ..., count-1`
and prepend every `NonTerm` id onto the bucket chain for `hash & mask`,
exactly as the rebuild loop does.  Returns the bucket and next columns. -/
def rehashAux (kind hash nextInit : Nat → Nat) (mask : Nat) : Nat → (Nat → Nat) × (Nat → Nat)
  | 0 => (fun _ => EMPTY, nextInit)
  | k + 1 =>
    let p := rehashAux kind hash nextInit mask k
    if kind k = KIND_NONTERM then
      let b := hash k &&& mask
      (upd p.1 b k, upd p.2 k (p.1 b))
    else p

/-- The resize step `grow`.  `none` models the poison-and-trap path taken when
the capacity ceiling is reached (host `memory_grow` is modelled as granted).
Fields at ids in `[0, count)` are copied; the extension is zeroed; ids in
`[count, old capacity)` are dead (beyond `top` in every reachable state) and
are modelled as zero.  The buckets are rebuilt from the `NonTerm` nodes. -/
def grow (A : Arena) : Option Arena :=
  if MAX_CAP ≤ A.capacity then none
  else
    let newCap := min (A.capacity * 2) MAX_CAP
    let count := min A.top A.capacity
    let kind1 := fun i => if i < count then A.kind i else 0
    let sym1 := fun i => if i < count then A.sym i else 0
    let left1 := fun i => if i < count then A.left i else 0
    let right1 := fun i => if i < count then A.right i else 0
    let hash1 := fun i => if i < count then A.hash i else 0
    let next1 := fun i => if i < count then A.next i else 0
    let bn := rehashAux kind1 hash1 next1 (newCap - 1) count
    some
      { capacity := newCap
        bucketMask := newCap - 1
        top := count
        kind := kind1
        sym := sym1
        left := left1
        right := right1
        hash := hash1
        next := bn.2
        buckets := bn.1
        termCache := A.termCache }

/-- The stores of `allocTerminal`'s fresh-allocation path at a claimed id:
`kind = Terminal`, `sym = sym as u8`, `hash = sym`, cache update when
`sym < 4`, and the bumped `top`. -/
def allocTerminalAt (A : Arena) (s id : Nat) : Nat × Arena :=
  (id,
    { A with
      kind := upd A.kind id KIND_TERMINAL
      sym := upd A.sym id (s % 256)
      hash := upd A.hash id s
      termCache := if s < 4 then upd A.termCache s id else A.termCache
      top := id + 1 })

/-- `allocTerminal(sym)`: consult the four-slot terminal cache, else allocate a
fresh id, growing once when the capacity is exhausted.  The source's
`fetch_add` / clamp-in-`grow` / retry loop performs, sequentially, exactly one
`grow` followed by one allocation, which is what is written here. -/
def allocTerminal (A : Arena) (s : Nat) : Option (Nat × Arena) :=
  if s < 4 ∧ A.termCache s ≠ EMPTY then some (A.termCache s, A)
  else if A.top < A.capacity then some (allocTerminalAt A s A.top)
  else do
    let A1 ← grow A
    some (allocTerminalAt A1 s A1.top)

/-- The stores of `allocCons`'s fresh-allocation path: publish
`kind/left/right/hash` at the new id, then prepend it onto bucket
`hval & bucket_mask` (`next[id] = head; buckets[b] = id`). -/
def allocConsAt (A : Arena) (l r hval id : Nat) : Nat × Arena :=
  let b := hval &&& A.bucketMask
  (id,
    { A with
      kind := upd A.kind id KIND_NONTERM
      left := upd A.left id l
      right := upd A.right id r
      hash := upd A.hash id hval
      next := upd A.next id (A.buckets b)
      buckets := upd A.buckets b id
      top := id + 1 })

/-- `allocCons(l, r)`: hash-consed application allocation.  Children at or
beyond the capacity yield the sentinel `EMPTY` with no state change; a hit in
the bucket chain returns the existing id with no state change; otherwise a
fresh node is allocated (growing once if needed) and inserted into its bucket.
The CAS-loss hole-marking path of the source cannot occur sequentially. -/
def allocCons (A : Arena) (l r : Nat) : Option (Nat × Arena) :=
  if A.capacity ≤ l then some (EMPTY, A)
  else if A.capacity ≤ r then some (EMPTY, A)
  else
    let hval := mix (A.hash l) (A.hash r)
    match lookupAux A hval l r (A.top + 1) (A.buckets (hval &&& A.bucketMask)) with
    | some found => some (found, A)
    | none =>
      if A.top < A.capacity then some (allocConsAt A l r hval A.top)
      else do
        let A1 ← grow A
        some (allocConsAt A1 l r hval A1.top)

/-- The stores of `alloc_generic`: payload columns and `kind`, no bucket
insertion. -/
def allocGenericAt (A : Arena) (k s l r h id : Nat) : Nat × Arena :=
  (id,
    { A with
      kind := upd A.kind id k
      sym := upd A.sym id s
      left := upd A.left id l
      right := upd A.right id r
      hash := upd A.hash id h
      top := id + 1 })

/-- `alloc_generic(kind, sym, left, right, hash)` for continuations and
suspensions. -/
def allocGeneric (A : Arena) (k s l r h : Nat) : Option (Nat × Arena) :=
  if A.top < A.capacity then some (allocGenericAt A k s l r h A.top)
  else do
    let A1 ← grow A
    some (allocGenericAt A1 k s l r h A1.top)

/-- `alloc_continuation(parent, target, stage)`. -/
def allocContinuation (A : Arena) (parent target stage : Nat) : Option (Nat × Arena) :=
  allocGeneric A KIND_CONTINUATION stage parent target 0

/-- `alloc_suspension(curr, stack, mode, remaining_steps)`. -/
def allocSuspension (A : Arena) (curr stack mode rem : Nat) : Option (Nat × Arena) :=
  allocGeneric A KIND_SUSPENSION mode curr stack rem

/-- `update_continuation(id, parent, target, stage)`: rewrite a recycled frame
in place and re-mark it as a continuation. -/
def updateContinuation (A : Arena) (id parent target stage : Nat) : Arena :=
  { A with
    left := upd A.left id parent
    right := upd A.right id target
    sym := upd A.sym id stage
    kind := upd A.kind id KIND_CONTINUATION }

/-- Hole marking (`kind = 0`), the consolation write of a lost insertion race.
Sequentially unreachable from `allocCons`, kept as a state transition the
invariants tolerate. -/
def markHole (A : Arena) (id : Nat) : Arena :=
  { A with kind := upd A.kind id 0 }

/-- `reset()`: clear `top`, the buckets and the terminal cache; the columns
keep their stale bytes. -/
def resetArena (A : Arena) : Arena :=
  { A with
    top := 0
    buckets := fun _ => EMPTY
    termCache := fun _ => EMPTY }

/-!
Iterative reducer (`step_iterative`), single kernel step, `reduce`, stack
unwinding and the worker loop.  The traversal gas of the source decrements at
the top of every loop iteration, so the loop is structural recursion on gas.
The last `Nat` of the result is a ghost counter totalling the I/K/S rule
applications performed (it is not a source variable; it makes the
step-counting claims statable).
-/

/-- Result of `step_iterative`: a finished node or a suspension id. -/
inductive StepRes where
  | done (n : Nat)
  | yield (n : Nat)
deriving DecidableEq

/-- Point update of a column of an arbitrary payload type (ring slots). -/
def updF {α : Type} (f : Nat → α) (i : Nat) (v : α) : Nat → α :=
  fun j => if j = i then v else f j

/-- Add one rule application to the ghost counter of a reducer result. -/
def bumpCount (o : Option (StepRes × Arena × Nat × Nat)) :
    Option (StepRes × Arena × Nat × Nat) :=
  o.map fun x => (x.1, x.2.1, x.2.2.1, x.2.2.2 + 1)

/-- The body of `step_iterative(curr, stack, mode, gas, remaining_steps,
free_node)`.  Returns the step result, the arena, the remaining step budget
and the ghost rewrite count; `none` is the trap path (arena growth beyond the
ceiling). -/
def stepIterative : Nat → Arena → Nat → Nat → Nat → Nat → Nat →
    Option (StepRes × Arena × Nat × Nat)
  | 0, A, curr, stack, mode, rem, _free =>
    (allocSuspension A curr stack mode rem).bind fun p =>
      some (.yield p.1, p.2, rem, 0)
  | gas + 1, A, curr, stack, mode, rem, free =>
    if mode = MODE_RETURN then
      if stack = EMPTY then some (.done curr, A, rem, 0)
      else
        let recycled := stack
        let stack1 := leftOf A recycled
        let parent := rightOf A recycled
        let stage := symOf A recycled
        if stage = STAGE_LEFT then
          if curr ≠ leftOf A parent then
            (allocCons A curr (rightOf A parent)).bind fun p =>
              stepIterative gas p.2 p.1 stack1 MODE_RETURN rem recycled
          else
            stepIterative gas (updateContinuation A recycled stack1 parent STAGE_RIGHT)
              (rightOf A parent) recycled MODE_DESCEND rem free
        else
          if curr ≠ rightOf A parent then
            (allocCons A (leftOf A parent) curr).bind fun p =>
              stepIterative gas p.2 p.1 stack1 MODE_RETURN rem recycled
          else
            stepIterative gas A parent stack1 MODE_RETURN rem recycled
    else
      if kindOf A curr ≠ KIND_NONTERM then
        stepIterative gas A curr stack MODE_RETURN rem free
      else
        let l := leftOf A curr
        let r := rightOf A curr
        if kindOf A l = KIND_TERMINAL ∧ symOf A l = SYM_I then
          if rem = 0 then
            (allocSuspension A curr stack mode 0).bind fun p =>
              some (.yield p.1, p.2, 0, 0)
          else if rem - 1 = 0 then
            (allocSuspension A r stack MODE_RETURN 0).bind fun p =>
              some (.yield p.1, p.2, 0, 1)
          else
            bumpCount (stepIterative gas A r stack MODE_RETURN (rem - 1) free)
        else if kindOf A l = KIND_NONTERM ∧ kindOf A (leftOf A l) = KIND_TERMINAL ∧
            symOf A (leftOf A l) = SYM_K then
          if rem = 0 then
            (allocSuspension A curr stack mode 0).bind fun p =>
              some (.yield p.1, p.2, 0, 0)
          else if rem - 1 = 0 then
            (allocSuspension A (rightOf A l) stack MODE_RETURN 0).bind fun p =>
              some (.yield p.1, p.2, 0, 1)
          else
            bumpCount (stepIterative gas A (rightOf A l) stack MODE_RETURN (rem - 1) free)
        else if kindOf A l = KIND_NONTERM ∧ kindOf A (leftOf A l) = KIND_NONTERM ∧
            kindOf A (leftOf A (leftOf A l)) = KIND_TERMINAL ∧
            symOf A (leftOf A (leftOf A l)) = SYM_S then
          if rem = 0 then
            (allocSuspension A curr stack mode 0).bind fun p =>
              some (.yield p.1, p.2, 0, 0)
          else
            (allocCons A (rightOf A (leftOf A l)) r).bind fun pxz =>
              (allocCons pxz.2 (rightOf A l) r).bind fun pyz =>
                (allocCons pyz.2 pxz.1 pyz.1).bind fun pc =>
                  if rem - 1 = 0 then
                    (allocSuspension pc.2 pc.1 stack MODE_RETURN 0).bind fun p =>
                      some (.yield p.1, p.2, 0, 1)
                  else
                    bumpCount (stepIterative gas pc.2 pc.1 stack MODE_RETURN (rem - 1) free)
        else
          if free ≠ EMPTY then
            stepIterative gas (updateContinuation A free stack curr STAGE_LEFT)
              l free MODE_DESCEND rem EMPTY
          else
            (allocContinuation A stack curr STAGE_LEFT).bind fun p =>
              stepIterative gas p.2 l p.1 MODE_DESCEND rem free

/-- `step_internal(expr)`: one call of the iterative reducer with unbounded
gas and step budget; a yield (unreachable with unbounded gas) returns the
input expression. -/
def stepInternal (A : Arena) (expr : Nat) : Option (Nat × Arena × Nat) :=
  match stepIterative U32_MAX A expr EMPTY MODE_DESCEND U32_MAX EMPTY with
  | some (.done x, A1, _, c) => some (x, A1, c)
  | some (.yield _, A1, _, c) => some (expr, A1, c)
  | none => none

/-- Exported `arenaKernelStep`. -/
def arenaKernelStep (A : Arena) (expr : Nat) : Option (Nat × Arena) :=
  (stepInternal A expr).map fun p => (p.1, p.2.1)

/-- The `for _ in 0..limit` loop of `reduce`, with the ghost rewrite total. -/
def reduceLoop : Nat → Arena → Nat → Option (Nat × Arena × Nat)
  | 0, A, cur => some (cur, A, 0)
  | fuel + 1, A, cur =>
    (stepInternal A cur).bind fun p =>
      if p.1 = cur then some (cur, p.2.1, p.2.2)
      else
        (reduceLoop fuel p.2.1 p.1).bind fun q =>
          some (q.1, q.2.1, p.2.2 + q.2.2)

/-- Exported `reduce(expr, max)`. -/
def reduce (A : Arena) (expr maxSteps : Nat) : Option (Nat × Arena × Nat) :=
  let limit := if maxSteps = U32_MAX then U32_MAX else maxSteps
  reduceLoop limit A expr

/-- `unwind_to_root(curr, stack)`: rebuild ancestors up the continuation
chain.  The source walk is unbounded; fuel `top + 1` covers every chain the
sequential semantics builds, and exhausted fuel is modelled as `none`. -/
def unwindToRoot : Nat → Arena → Nat → Nat → Option (Nat × Arena)
  | 0, A, curr, stack => if stack = EMPTY then some (curr, A) else none
  | fuel + 1, A, curr, stack =>
    if stack = EMPTY then some (curr, A)
    else
      let recycled := stack
      let stack1 := leftOf A recycled
      let parent := rightOf A recycled
      let stage := symOf A recycled
      if stage = STAGE_LEFT then
        if curr ≠ leftOf A parent then
          (allocCons A curr (rightOf A parent)).bind fun p =>
            unwindToRoot fuel p.2 p.1 stack1
        else unwindToRoot fuel A parent stack1
      else
        if curr ≠ rightOf A parent then
          (allocCons A (leftOf A parent) curr).bind fun p =>
            unwindToRoot fuel p.2 p.1 stack1
        else unwindToRoot fuel A parent stack1

/-- Submission queue entry. -/
structure Sqe where
  node_id : Nat
  req_id : Nat
  max_steps : Nat
deriving DecidableEq

instance : Inhabited Sqe := ⟨⟨0, 0, 0⟩⟩

/-- Completion queue entry (`_pad` kept for layout fidelity). -/
structure Cqe where
  node_id : Nat
  req_id : Nat
  pad : Nat
deriving DecidableEq

instance : Inhabited Cqe := ⟨⟨0, 0, 0⟩⟩

/-- Per-dequeue traversal gas of the worker loop. -/
def batchGas : Nat := 20000

/-- The inner per-job loop of `workerLoop`, after the evaluation state has
been initialized: check the step budget, run a reducer batch, loop on a
changed `Done`, and stop on a fixpoint, a yield or an exhausted budget.
The fuel bounds the number of reducer batches (a modelling device; the
source loops until a break). -/
def workerRun : Nat → Arena → Nat → Nat → Nat → Nat → Nat → Nat →
    Option (Cqe × Arena)
  | 0, _, _, _, _, _, _, _ => none
  | fuel + 1, A, curr, stack, mode, rem, free, reqId =>
    if rem = 0 then
      if stack ≠ EMPTY then
        (unwindToRoot (A.top + 1) A curr stack).bind fun p =>
          some (⟨p.1, reqId, 0⟩, p.2)
      else some (⟨curr, reqId, 0⟩, A)
    else
      match stepIterative batchGas A curr stack mode rem free with
      | none => none
      | some (.yield sid, A1, _, _) => some (⟨sid, reqId, 0⟩, A1)
      | some (.done next, A1, rem1, _) =>
        if next = curr then some (⟨curr, reqId, 0⟩, A1)
        else workerRun fuel A1 next EMPTY MODE_DESCEND rem1 EMPTY reqId

/-- One dequeued job of `workerLoop`: resume a Suspension payload from its
captured `(curr, stack, mode, remaining_steps)` (recycling the Suspension id
as `free_node`), or start fresh from the submitted node with the job's
`max_steps`. -/
def processJob (fuel : Nat) (A : Arena) (job : Sqe) : Option (Cqe × Arena) :=
  if kindOf A job.node_id = KIND_SUSPENSION then
    workerRun fuel A (leftOf A job.node_id) (rightOf A job.node_id)
      (symOf A job.node_id) (hashOfInternal A job.node_id) job.node_id job.req_id
  else
    let limit := if job.max_steps = U32_MAX then U32_MAX else job.max_steps
    workerRun fuel A job.node_id EMPTY MODE_DESCEND limit EMPTY job.req_id

/-!
SPSC ring transport.  Head, tail and the per-slot sequence numbers are u32
values wrapping modulo `2^32`; the payload array is indexed by the masked
slot.  The wait/notify counters have no sequential content and are omitted.
In a single-threaded execution the CAS of `try_enqueue` / `try_dequeue`
always succeeds on the first attempt, so the retry loops collapse: a slot
sequence mismatch can only mean full (resp. empty).
-/

/-- SPSC ring state (`Ring<T>` plus its slot array). -/
structure SpscRing (T : Type) where
  head : Nat
  tail : Nat
  mask : Nat
  entries : Nat
  seq : Nat → Nat
  payload : Nat → T

/-- `Ring::init_at`: positions zero, slot `i`'s sequence `i`. -/
def ringInit (T : Type) [Inhabited T] (entries : Nat) : SpscRing T :=
  { head := 0
    tail := 0
    mask := entries - 1
    entries := entries
    seq := fun i => i
    payload := fun _ => default }

/-- `try_enqueue`: claim the tail slot when its sequence matches the tail. -/
def tryEnqueue {T : Type} (r : SpscRing T) (item : T) : Bool × SpscRing T :=
  let t := r.tail
  let s := r.seq (t &&& r.mask)
  if (s + M32 - t) % M32 = 0 then
    (true,
      { r with
        payload := updF r.payload (t &&& r.mask) item
        seq := upd r.seq (t &&& r.mask) ((t + 1) % M32)
        tail := (t + 1) % M32 })
  else (false, r)

/-- `try_dequeue`: claim the head slot when its sequence is `head + 1`; the
consumed slot's sequence advances by a full cycle (`head + mask + 1`). -/
def tryDequeue {T : Type} (r : SpscRing T) : Option T × SpscRing T :=
  let h := r.head
  let s := r.seq (h &&& r.mask)
  if (s + M32 - ((h + 1) % M32)) % M32 = 0 then
    (some (r.payload (h &&& r.mask)),
      { r with
        seq := upd r.seq (h &&& r.mask) ((h + r.mask + 1) % M32)
        head := (h + 1) % M32 })
  else (none, r)

/-- `hostSubmit(node_id, req_id, max_steps)` against the submission ring of a
connected arena: `0` enqueued, `1` full. -/
def hostSubmit (sq : SpscRing Sqe) (node req maxSteps : Nat) : Nat × SpscRing Sqe :=
  let p := tryEnqueue sq ⟨node, req, maxSteps⟩
  if p.1 then (0, p.2) else (1, sq)

/-- `hostPull()` against the completion ring: the packed
`(req_id << 32) | node_id`, or `-1` when the ring is empty. -/
def hostPull (cq : SpscRing Cqe) : Int × SpscRing Cqe :=
  match tryDequeue cq with
  | (some c, cq1) => (((c.req_id * 2 ^ 32 + c.node_id : Nat) : Int), cq1)
  | (none, cq1) => (-1, cq1)

/-- One turn of `workerLoop`: blocking-dequeue a submission (which must be
available for the sequential turn to proceed), process it, and
blocking-enqueue the completion. -/
def workerIteration (fuel : Nat) (A : Arena) (sq : SpscRing Sqe) (cq : SpscRing Cqe) :
    Option (Arena × SpscRing Sqe × SpscRing Cqe) :=
  match tryDequeue sq with
  | (none, _) => none
  | (some job, sq1) =>
    (processJob fuel A job).bind fun p =>
      let q := tryEnqueue cq p.1
      if q.1 then some (p.2, sq1, q.2) else none

/-!
Publication order of `allocTerminal` (write-event granularity) and the
`connectArena` validation, for the temporal and error-handling claims.
-/

/-- A single column store. -/
inductive ColWrite where
  | kind (id v : Nat)
  | sym (id v : Nat)
  | hash (id v : Nat)
  | cache (slot v : Nat)
deriving DecidableEq

/-- Apply one store to the arena. -/
def applyWrite (A : Arena) : ColWrite → Arena
  | .kind id v => { A with kind := upd A.kind id v }
  | .sym id v => { A with sym := upd A.sym id v }
  | .hash id v => { A with hash := upd A.hash id v }
  | .cache s v => { A with termCache := upd A.termCache s v }

/-- Apply a sequence of stores in program order. -/
def applyWrites (A : Arena) (ws : List ColWrite) : Arena :=
  ws.foldl applyWrite A

/-- The stores of `allocTerminal`'s fresh-allocation path at the claimed id
`id`, in the source's program order: `kind[id] = Terminal` first, then
`sym[id]`, then `hash[id] = sym`, then the cache slot when `sym < 4`. -/
def allocTerminalStores (id s : Nat) : List ColWrite :=
  [ColWrite.kind id KIND_TERMINAL, ColWrite.sym id (s % 256), ColWrite.hash id s] ++
    (if s < 4 then [ColWrite.cache s id] else [])

/-- Thread-local attachment globals (`ARENA_BASE_ADDR`, `ARENA_MODE`). -/
structure Globals where
  base : Nat
  mode : Nat
deriving DecidableEq

/-- The magic constant `ARENA_MAGIC = 0x534B_4941`. -/
def ARENA_MAGIC : Nat := 0x534b4941

/-- `connectArena(ptr_addr)` where `mem addr` models the u32 read of the
header magic placed at `addr`.  The source rejects a zero or misaligned
address with `0` before touching the globals, then stores the base address
and mode, and only then validates the magic (`5` on mismatch, `1` on
success). -/
def connectArena (mem : Nat → Nat) (g : Globals) (ptr : Nat) : Nat × Globals :=
  if ptr = 0 ∨ ptr % 64 ≠ 0 then (0, g)
  else
    let g1 : Globals := { base := ptr, mode := 1 }
    if mem ptr ≠ ARENA_MAGIC then (5, g1)
    else (1, g1)

/-!
Comparison definition and concrete scenarios used by the claims.
-/

/-- Written from the specification's words, for comparison with the source's
`avalanche32`: the MurmurHash3 32-bit finalizer
`x ^= x >> 16; x *= 0x85EBCA6B; x ^= x >> 13; x *= 0xC2B2AE35; x ^= x >> 16`.
This is not a source function; it is the function the specification asserts
`avalanche32` to be. -/
def murmur3Finalizer32 (x : Nat) : Nat :=
  let x1 := x ^^^ (x >>> 16)
  let x2 := x1 * 0x85ebca6b % M32
  let x3 := x2 ^^^ (x2 >>> 13)
  let x4 := x3 * 0xc2b2ae35 % M32
  x4 ^^^ (x4 >>> 16)

instance : Inhabited Arena := ⟨initArena 0⟩

instance {T : Type} [Inhabited T] : Inhabited (SpscRing T) := ⟨ringInit T 1⟩

/-!
Scenario of claim C1 (suspend / resume through the rings): a 1024-capacity
arena holding `S` (id 0), `I` (id 1), `I S` (id 2), `I (I S)` (id 3) and
`I (I (I S))` (id 4), a submission of node 4 with request id 42 and a step
budget of 2, and a resubmission of the resulting completion node with a step
budget of 10.
-/

def c1A0 : Arena := initArena 1024
def c1A1 : Arena := ((allocTerminal c1A0 1).get!).2
def c1A2 : Arena := ((allocTerminal c1A1 3).get!).2
def c1A3 : Arena := ((allocCons c1A2 1 0).get!).2
def c1A4 : Arena := ((allocCons c1A3 1 2).get!).2
def c1Arena : Arena := ((allocCons c1A4 1 3).get!).2

/-- Submission of `(expr = 4, req_id = 42, max_steps = 2)`. -/
def c1Sub1 : Nat × SpscRing Sqe := hostSubmit (ringInit Sqe 1024) 4 42 2

/-- The worker turn processing the first submission. -/
def c1Work1 : Arena × SpscRing Sqe × SpscRing Cqe :=
  (workerIteration 100 c1Arena c1Sub1.2 (ringInit Cqe 1024)).get!

/-- First completion pulled by the host. -/
def c1Pull1 : Int × SpscRing Cqe := hostPull c1Work1.2.2

/-- Resubmission of the suspension node (id 5) with `max_steps = 10`. -/
def c1Sub2 : Nat × SpscRing Sqe := hostSubmit c1Work1.2.1 5 42 10

/-- The worker turn processing the resubmission. -/
def c1Work2 : Arena × SpscRing Sqe × SpscRing Cqe :=
  (workerIteration 100 c1Work1.1 c1Sub2.2 c1Pull1.2).get!

/-- Second completion pulled by the host. -/
def c1Pull2 : Int × SpscRing Cqe := hostPull c1Work2.2.2

/-!
Scenario of claim C3: terminals `S` (id 0), `K` (id 1), `I` (id 2),
`extra = term(10)` (id 3), the spine `((S K) I) extra`
(ids 4, 5, 6), and one kernel step on the spine.
-/

def c3A0 : Arena := initArena 1024
def c3A1 : Arena := ((allocTerminal c3A0 1).get!).2
def c3A2 : Arena := ((allocTerminal c3A1 2).get!).2
def c3A3 : Arena := ((allocTerminal c3A2 3).get!).2
def c3A4 : Arena := ((allocTerminal c3A3 10).get!).2
def c3A5 : Arena := ((allocCons c3A4 0 1).get!).2
def c3A6 : Arena := ((allocCons c3A5 4 2).get!).2
def c3Arena : Arena := ((allocCons c3A6 5 3).get!).2

/-- The kernel step `arenaKernelStep(spine)` on the C3 scenario. -/
def c3Step : Nat × Arena := (arenaKernelStep c3Arena 6).get!

/-- Intermediate arenas of the three hash-consed allocations of the S rule on
the C3 spine, used to state the S-rule instance. -/
def c3W1 : Arena := ((allocCons c3Arena 1 3).get!).2
def c3W2 : Arena := ((allocCons c3W1 2 3).get!).2
def c3W3 : Arena := ((allocCons c3W2 7 8).get!).2

/-!
Hash-cons invariants.  Bucket chains built by the sequential semantics are
strictly decreasing (a fresh id is prepended and is larger than everything
already in the arena; the rebuild of `grow` prepends ids in increasing
order), which bounds every chain walk by `top + 1` steps.
-/

/-- Well-formed bucket chain: every element is an allocated id (`< top`) and
the chain strictly decreases, ending in `EMPTY`. -/
inductive WFChain (nxt : Nat → Nat) (top : Nat) : Nat → Prop where
  | nil : WFChain nxt top EMPTY
  | cons (c : Nat) (hne : c ≠ EMPTY) (hlt : c < top)
      (hdec : nxt c < c ∨ nxt c = EMPTY)
      (htail : WFChain nxt top (nxt c)) : WFChain nxt top c

/-- Membership of an id in the chain starting at a given head. -/
inductive InChain (nxt : Nat → Nat) : Nat → Nat → Prop where
  | head (c : Nat) (hne : c ≠ EMPTY) : InChain nxt c c
  | tail (c j : Nat) (hne : c ≠ EMPTY) (hj : InChain nxt (nxt c) j) : InChain nxt c j

/-- The sequential arena invariant.  `strict` (children have smaller ids than
their application, everywhere — stale rows beyond `top` kept their fields
from when they were live) gives acyclicity; `hashEq` ties every stored
application hash to its children's current hashes; `uniq` is the hash-cons
uniqueness; `chains` and `memb` say the bucket index is well formed and
complete. -/
structure ArenaInv (A : Arena) : Prop where
  pow2 : ∃ k : Nat, A.capacity = 2 ^ k
  capLB : 1024 ≤ A.capacity
  capUB : A.capacity ≤ MAX_CAP
  maskEq : A.bucketMask = A.capacity - 1
  topLe : A.top ≤ A.capacity
  strict : ∀ i, A.kind i = KIND_NONTERM → A.left i < i ∧ A.right i < i
  hashEq : ∀ i, i < A.top → A.kind i = KIND_NONTERM →
      A.hash i = mix (A.hash (A.left i)) (A.hash (A.right i))
  uniq : ∀ i j, i < A.top → j < A.top → A.kind i = KIND_NONTERM →
      A.kind j = KIND_NONTERM → A.left i = A.left j → A.right i = A.right j → i = j
  chains : ∀ b, WFChain A.next A.top (A.buckets b)
  memb : ∀ i, i < A.top → A.kind i = KIND_NONTERM →
      InChain A.next (A.buckets (A.hash i &&& A.bucketMask)) i

/-- The reachable arena states: initialization with a validated capacity,
then any sequence of terminal allocations, application allocations on
allocated children, continuation/suspension allocations, in-place frame
updates, hole markings, resets and resizes — everything the exported API and
the reducer perform, sequentially. -/
inductive Reachable : Arena → Prop where
  | init (k : Nat) (h1 : 10 ≤ k) (h2 : k ≤ 27) : Reachable (initArena (2 ^ k))
  | termStep (A : Arena) (s id : Nat) (A1 : Arena) (hA : Reachable A)
      (h : allocTerminal A s = some (id, A1)) : Reachable A1
  | consStep (A : Arena) (l r id : Nat) (A1 : Arena) (hA : Reachable A)
      (hl : l < A.top) (hr : r < A.top) (h : allocCons A l r = some (id, A1)) : Reachable A1
  | contStep (A : Arena) (p t st id : Nat) (A1 : Arena) (hA : Reachable A)
      (h : allocContinuation A p t st = some (id, A1)) : Reachable A1
  | suspStep (A : Arena) (c st m rem id : Nat) (A1 : Arena) (hA : Reachable A)
      (h : allocSuspension A c st m rem = some (id, A1)) : Reachable A1
  | updateStep (A : Arena) (id p t st : Nat) (hA : Reachable A) :
      Reachable (updateContinuation A id p t st)
  | holeStep (A : Arena) (id : Nat) (hA : Reachable A) : Reachable (markHole A id)
  | resetStep (A : Arena) (hA : Reachable A) : Reachable (resetArena A)
  | growStep (A A1 : Arena) (hA : Reachable A) (h : grow A = some A1) : Reachable A1

/-!
General lemmas about the embedding.
-/

/-- The child node a continuation frame's stage points at: the left child of
the frame's parent application for a LEFT-stage frame, the right child for a
RIGHT-stage frame. -/
def stageChild (A : Arena) (f : Nat) : Nat :=
  if A.sym f = STAGE_LEFT then A.left (A.right f) else A.right (A.right f)
/-- Ghost representation of the reducer's continuation stack as the list of
frame ids reached through the `left` links, together with their
well-formedness: every frame is an allocated Continuation with a LEFT or
RIGHT stage whose `right` field is an allocated application node, and each
frame's parent node is the stage child of the frame below it. -/
inductive StackRep (A : Arena) : Nat → List Nat → Prop where
  | nil : StackRep A EMPTY []
  | cons (f : Nat) (fs : List Nat)
      (hne : f ≠ EMPTY) (hlt : f < A.top)
      (hk : A.kind f = KIND_CONTINUATION)
      (hst : A.sym f = STAGE_LEFT ∨ A.sym f = STAGE_RIGHT)
      (hp : A.right f < A.top)
      (hpk : A.kind (A.right f) = KIND_NONTERM)
      (hlink : ∀ g gs, fs = g :: gs → A.right f = stageChild A g)
      (htail : StackRep A (A.left f) fs) :
      StackRep A f (f :: fs)
/-- The scratch `free_node` of the reducer: empty, or a dead non-application
id outside the current stack, safe to overwrite as a fresh frame. -/
def FreeOK (A : Arena) (free : Nat) (fs : List Nat) : Prop :=
  free = EMPTY ∨ (free < A.top ∧ A.kind free ≠ KIND_NONTERM ∧ free ∉ fs)
/-- Field preservation below the old `top`, the footprint every allocation
step leaves on already-allocated ids. -/
def PresBelow (A A1 : Arena) : Prop :=
  A.top ≤ A1.top ∧ ∀ i, i < A.top → A1.kind i = A.kind i ∧ A1.sym i = A.sym i ∧
    A1.left i = A.left i ∧ A1.right i = A.right i
/-- Conclusion bundle of the reducer-call lemmas: if the call returns (no
trap), the invariant is preserved, `top` is monotone, the ghost rewrite count
is at most `bound`, and a `Done` result is a valid node id. -/
def StepOK (atop : Nat) (o : Option (StepRes × Arena × Nat × Nat)) (bound : Nat) : Prop :=
  match o with
  | none => True
  | some (res, A1, _, cnt) =>
      ArenaInv A1 ∧ atop ≤ A1.top ∧ cnt ≤ bound ∧
      (∀ x, res = StepRes.done x → x < A1.top)

theorem upd_same (f : Nat → Nat) (i v : Nat) : upd f i v i = v := by
  simp [upd]

theorem upd_ne (f : Nat → Nat) {i j : Nat} (v : Nat) (h : j ≠ i) : upd f i v j = f j := by
  simp [upd, h]

theorem kindOf_lt {A : Arena} {n : Nat} (h : n < A.capacity) : kindOf A n = A.kind n := by
  simp [kindOf, h]

theorem symOf_lt {A : Arena} {n : Nat} (h : n < A.capacity) : symOf A n = A.sym n := by
  simp [symOf, h]

theorem leftOf_lt {A : Arena} {n : Nat} (h : n < A.capacity) : leftOf A n = A.left n := by
  simp [leftOf, h]

theorem rightOf_lt {A : Arena} {n : Nat} (h : n < A.capacity) : rightOf A n = A.right n := by
  simp [rightOf, h]

/-- Soundness of the bucket-chain walk: a returned id is an in-capacity
`NonTerm` node whose hash and children match the probe. -/
theorem lookupAux_some {A : Arena} {hval l r : Nat} :
    ∀ {fuel cur j : Nat}, lookupAux A hval l r fuel cur = some j →
      A.kind j = KIND_NONTERM ∧ A.hash j = hval ∧ A.left j = l ∧ A.right j = r ∧
      j < A.capacity ∧ j ≠ EMPTY := by
  intro fuel
  induction fuel with
  | zero => intro cur j h; exact absurd h (by simp [lookupAux])
  | succ n ih =>
    intro cur j h
    rw [lookupAux] at h
    by_cases h1 : cur = EMPTY
    · simp [h1] at h
    by_cases h2 : A.capacity ≤ cur
    · simp [h1, h2] at h
    by_cases h3 : A.kind cur = KIND_NONTERM ∧ A.hash cur = hval ∧ A.left cur = l ∧ A.right cur = r
    · simp [h1, h2, h3] at h
      subst h
      exact ⟨h3.1, h3.2.1, h3.2.2.1, h3.2.2.2, lt_of_not_ge h2, h1⟩
    · simp [h1, h2, h3] at h
      exact ih h

/-- Fields of the node produced by the fresh-allocation path of
`allocTerminal`. -/
theorem allocTerminal_fresh {A : Arena} {s id : Nat} {A1 : Arena}
    (hfresh : ¬(s < 4 ∧ A.termCache s ≠ EMPTY))
    (h : allocTerminal A s = some (id, A1)) :
    A1.kind id = KIND_TERMINAL ∧ A1.sym id = s % 256 ∧ A1.hash id = s := by
  rw [allocTerminal, if_neg hfresh] at h
  by_cases htop : A.top < A.capacity
  · rw [if_pos htop] at h
    simp only [allocTerminalAt, Option.some.injEq, Prod.mk.injEq] at h
    obtain ⟨h1, h2⟩ := h
    subst h1; subst h2
    exact ⟨upd_same _ _ _, upd_same _ _ _, upd_same _ _ _⟩
  · rw [if_neg htop] at h
    cases hg : grow A with
    | none => simp [hg] at h
    | some A2 =>
      simp only [hg, Option.bind_eq_bind, Option.some_bind, Option.some.injEq,
        allocTerminalAt, Prod.mk.injEq] at h
      obtain ⟨h1, h2⟩ := h
      subst h1; subst h2
      exact ⟨upd_same _ _ _, upd_same _ _ _, upd_same _ _ _⟩

/-- Fields of the id returned by `allocCons` when it is not the sentinel:
kind `NonTerm`, the requested children, and the mixed hash of the (pre-call)
child hashes. -/
theorem allocCons_node {A : Arena} {l r id : Nat} {A1 : Arena}
    (h : allocCons A l r = some (id, A1)) (hid : id ≠ EMPTY) :
    A1.kind id = KIND_NONTERM ∧ A1.left id = l ∧ A1.right id = r ∧
    A1.hash id = mix (A.hash l) (A.hash r) := by
  rw [allocCons] at h
  by_cases hl : A.capacity ≤ l
  · rw [if_pos hl] at h
    simp only [Option.some.injEq, Prod.mk.injEq] at h
    exact absurd h.1.symm hid
  rw [if_neg hl] at h
  by_cases hr : A.capacity ≤ r
  · rw [if_pos hr] at h
    simp only [Option.some.injEq, Prod.mk.injEq] at h
    exact absurd h.1.symm hid
  rw [if_neg hr] at h
  simp only [] at h
  cases hlu : lookupAux A (mix (A.hash l) (A.hash r)) l r (A.top + 1)
      (A.buckets (mix (A.hash l) (A.hash r) &&& A.bucketMask)) with
  | some found =>
    rw [hlu] at h
    simp only [Option.some.injEq, Prod.mk.injEq] at h
    obtain ⟨h1, h2⟩ := h
    subst h1; subst h2
    obtain ⟨k1, k2, k3, k4, _, _⟩ := lookupAux_some hlu
    exact ⟨k1, k3, k4, k2⟩
  | none =>
    rw [hlu] at h
    by_cases htop : A.top < A.capacity
    · rw [if_pos htop] at h
      simp only [allocConsAt, Option.some.injEq, Prod.mk.injEq] at h
      obtain ⟨h1, h2⟩ := h
      subst h1; subst h2
      exact ⟨upd_same _ _ _, upd_same _ _ _, upd_same _ _ _, upd_same _ _ _⟩
    · rw [if_neg htop] at h
      cases hg : grow A with
      | none => simp [hg] at h
      | some A2 =>
        simp only [hg, Option.bind_eq_bind, Option.some_bind, Option.some.injEq,
          allocConsAt, Prod.mk.injEq] at h
        obtain ⟨h1, h2⟩ := h
        subst h1; subst h2
        exact ⟨upd_same _ _ _, upd_same _ _ _, upd_same _ _ _, upd_same _ _ _⟩

/-- C9: out-of-bounds accessor behavior: for every node id `n ≥ capacity`,
`kind-of`, `sym-of`, `left-of` and `right-of` all return 0.  The accessors of
the embedding are pure functions of the arena state (they model reads only),
so the arena is unchanged by the call, and they are total (no trap). -/
theorem C9_accessors_oob : ∀ (A : Arena) (n : Nat), A.capacity ≤ n →
    kindOf A n = 0 ∧ symOf A n = 0 ∧ leftOf A n = 0 ∧ rightOf A n = 0 := by
  intro A n h
  have hn : ¬ n < A.capacity := not_lt.mpr h
  simp [kindOf, symOf, leftOf, rightOf, hn]

/-- Witness for C9 at the freshly initialized 1024-capacity arena and id
1024. -/
theorem C9_accessors_oob_witness :
    kindOf (initArena 1024) 1024 = 0 ∧ symOf (initArena 1024) 1024 = 0 ∧
    leftOf (initArena 1024) 1024 = 0 ∧ rightOf (initArena 1024) 1024 = 0 :=
  C9_accessors_oob (initArena 1024) 1024 (by decide)

/-- C10: `allocCons` with a child at or beyond the capacity returns the
sentinel `EMPTY` and the arena unchanged: no node is allocated, nothing is
modified, and no trap is taken. -/
theorem C10_allocCons_oob : ∀ (A : Arena) (l r : Nat),
    A.capacity ≤ l ∨ A.capacity ≤ r → allocCons A l r = some (EMPTY, A) := by
  intro A l r h
  by_cases hl : A.capacity ≤ l
  · simp [allocCons, hl]
  · rcases h with h | h
    · exact absurd h hl
    · simp [allocCons, hl, h]

/-- Witness for C10 at the initialized arena with `l = 1024 = capacity`. -/
theorem C10_allocCons_oob_witness :
    allocCons (initArena 1024) 1024 0 = some (EMPTY, initArena 1024) :=
  C10_allocCons_oob (initArena 1024) 1024 0 (Or.inl (by decide))

/-- C8 counterexample: at the 64-byte-misaligned nonzero address 96, the
claim says `connect-arena` returns 6; the source returns 0. -/
theorem C8_counterexample :
    (connectArena (fun _ => 0) ⟨0, 0⟩ 96).1 = 0 ∧
    (connectArena (fun _ => 0) ⟨0, 0⟩ 96).1 ≠ 6 := by decide

/-- C8 amended: `connect-arena` returns 1 on an aligned nonzero address with
matching magic; it returns 0 (not 6) on a zero or misaligned address, leaving
the globals untouched; it returns 5 on an aligned address with a magic
mismatch, but on that path the base-address and mode globals have already
been set. -/
theorem C8_connect_amended : ∀ (mem : Nat → Nat) (g : Globals) (ptr : Nat),
    (ptr ≠ 0 → ptr % 64 = 0 → mem ptr = ARENA_MAGIC →
      connectArena mem g ptr = (1, ⟨ptr, 1⟩)) ∧
    (ptr = 0 ∨ ptr % 64 ≠ 0 → connectArena mem g ptr = (0, g)) ∧
    (ptr ≠ 0 → ptr % 64 = 0 → mem ptr ≠ ARENA_MAGIC →
      connectArena mem g ptr = (5, ⟨ptr, 1⟩)) := by
  intro mem g ptr
  refine ⟨fun h0 h64 hm => ?_, fun h => ?_, fun h0 h64 hm => ?_⟩
  · simp [connectArena, h0, h64, hm]
  · simp [connectArena, h]
  · simp [connectArena, h0, h64, hm]

/-- Witness for C8: the three return paths at concrete addresses. -/
theorem C8_connect_amended_witness :
    connectArena (fun _ => ARENA_MAGIC) ⟨0, 0⟩ 64 = (1, ⟨64, 1⟩) ∧
    connectArena (fun _ => ARENA_MAGIC) ⟨7, 7⟩ 96 = (0, ⟨7, 7⟩) ∧
    connectArena (fun _ => 0) ⟨0, 0⟩ 64 = (5, ⟨64, 1⟩) :=
  ⟨(C8_connect_amended _ _ 64).1 (by decide) (by decide) rfl,
   (C8_connect_amended (fun _ => ARENA_MAGIC) ⟨7, 7⟩ 96).2.1 (Or.inr (by decide)),
   (C8_connect_amended _ _ 64).2.2 (by decide) (by decide) (by decide)⟩

/-- C7 (claim right, code wrong): the claim and the specification require the
stores to `sym[id]` and `hash[id]` to happen before the store publishing
`kind[id] = Terminal`.  The source (`allocTerminal`, fresh path) stores
`kind[id] = Terminal` FIRST, then `sym`, then `hash`: after the first store
of `allocTerminalStores 0 1` (the call `allocTerminal(1)` on a fresh arena,
allocating id 0) the node already reads as a Terminal while `hash[0]` still
holds the unwritten value 0 ≠ 1.  The remaining conjuncts check that the
write sequence agrees, column by column, with the net effect
`allocTerminalAt` of the same call. -/
theorem C7_publication_order_bug :
    (applyWrites (initArena 1024) ((allocTerminalStores 0 1).take 1)).kind 0 = KIND_TERMINAL ∧
    (applyWrites (initArena 1024) ((allocTerminalStores 0 1).take 1)).hash 0 = 0 ∧
    (0 : Nat) ≠ 1 ∧
    (applyWrites (initArena 1024) (allocTerminalStores 0 1)).kind 0 =
      ((allocTerminalAt (initArena 1024) 1 0).2).kind 0 ∧
    (applyWrites (initArena 1024) (allocTerminalStores 0 1)).sym 0 =
      ((allocTerminalAt (initArena 1024) 1 0).2).sym 0 ∧
    (applyWrites (initArena 1024) (allocTerminalStores 0 1)).hash 0 =
      ((allocTerminalAt (initArena 1024) 1 0).2).hash 0 ∧
    (applyWrites (initArena 1024) (allocTerminalStores 0 1)).termCache 1 =
      ((allocTerminalAt (initArena 1024) 1 0).2).termCache 1 := by decide

/-- C6 counterexample: the source's `avalanche32` is not the MurmurHash3
32-bit finalizer: the two differ at input 1, and the stored hash of the
application node `(I S)` (id 2 of the C1 scenario) differs from the value the
claim's formula would give. -/
theorem C6_counterexample :
    avalanche32 1 ≠ murmur3Finalizer32 1 ∧
    c1A3.hash 2 ≠ murmur3Finalizer32 (c1A2.hash 1 ^^^ (c1A2.hash 0 * GOLD % M32)) := by decide

/-- C6 amended: a fresh terminal's stored hash equals its symbol value, and
the stored hash of an application node equals `mix(hash[left], hash[right])`
with `mix(a, b) = avalanche32(a XOR (b * 0x9E3779B9))` — where `avalanche32`
is `x ^= x>>16; x *= 0x7FEB352D; x ^= x>>15; x *= 0x846CA68B; x ^= x>>16`,
not the MurmurHash3 finalizer asserted by the claim. -/
theorem C6_hash_amended :
    (∀ (A : Arena) (s id : Nat) (A1 : Arena), ¬(s < 4 ∧ A.termCache s ≠ EMPTY) →
      allocTerminal A s = some (id, A1) → A1.hash id = s) ∧
    (∀ (A : Arena) (l r id : Nat) (A1 : Arena), allocCons A l r = some (id, A1) →
      id ≠ EMPTY → A1.hash id = mix (A.hash l) (A.hash r)) :=
  ⟨fun _ _ _ _ hf h => (allocTerminal_fresh hf h).2.2,
   fun _ _ _ _ _ h hid => (allocCons_node h hid).2.2.2⟩

/-- Witness for C6: the terminal `S` (id 0) and the application `(I S)`
(id 2) of the C1 scenario. -/
theorem C6_hash_amended_witness :
    c1A1.hash 0 = 1 ∧ c1A3.hash 2 = mix (c1A2.hash 1) (c1A2.hash 0) :=
  ⟨C6_hash_amended.1 c1A0 1 0 c1A1 (by decide) rfl,
   C6_hash_amended.2 c1A2 1 0 2 c1A3 rfl (by decide)⟩

/-- C1 counterexample: running the claimed scenario end to end through the
rings, the second completion (after resubmitting the Suspension with
`max_steps = 10`) carries node id 2, which is an Application — not a
Terminal, hence not the terminal `S` (which is id 0 with symbol `S` in the
same arena).  The worker's resume path takes `remaining_steps` from the
Suspension's hash field (0) and ignores the resubmitted `max_steps`. -/
theorem C1_counterexample :
    (workerIteration 100 c1Work1.1 c1Sub2.2 c1Pull1.2).isSome = true ∧
    c1Pull2.1 = ((42 * 2 ^ 32 + 2 : Nat) : Int) ∧
    kindOf c1Work2.1 2 = KIND_NONTERM ∧
    KIND_NONTERM ≠ KIND_TERMINAL ∧
    kindOf c1Work2.1 0 = KIND_TERMINAL ∧ symOf c1Work2.1 0 = SYM_S ∧
    (2 : Nat) ≠ 0 := by decide

/-- C1 amended: submitting `I (I (I S))` (node 4) with `req_id = 42` and
`max_steps = 2` yields a completion with `req_id = 42` whose node (id 5) is a
Suspension with `remaining_steps = 0`; resubmitting that Suspension with
`max_steps = 10` yields a completion with the same `req_id` whose node is the
partially reduced Application `I S` (id 2, left the terminal `I`, right the
terminal `S`), because resumption trusts the Suspension's captured
`remaining_steps` (0) and ignores the resubmitted `max_steps`. -/
theorem C1_suspend_resume_amended :
    c1Sub1.1 = 0 ∧
    (workerIteration 100 c1Arena c1Sub1.2 (ringInit Cqe 1024)).isSome = true ∧
    c1Pull1.1 = ((42 * 2 ^ 32 + 5 : Nat) : Int) ∧
    kindOf c1Work1.1 5 = KIND_SUSPENSION ∧
    hashOfInternal c1Work1.1 5 = 0 ∧
    c1Sub2.1 = 0 ∧
    (workerIteration 100 c1Work1.1 c1Sub2.2 c1Pull1.2).isSome = true ∧
    c1Pull2.1 = ((42 * 2 ^ 32 + 2 : Nat) : Int) ∧
    kindOf c1Work2.1 2 = KIND_NONTERM ∧
    leftOf c1Work2.1 2 = 1 ∧ rightOf c1Work2.1 2 = 0 ∧
    kindOf c1Work2.1 1 = KIND_TERMINAL ∧ symOf c1Work2.1 1 = SYM_I ∧
    kindOf c1Work2.1 0 = KIND_TERMINAL ∧ symOf c1Work2.1 0 = SYM_S := by decide

/-- C3: the reducer implements the three SKI head rules, each in one counted
step (the ghost counter of the embedding totals rule applications):
`I x` rewrites to `x`; `(K x) y` rewrites to `x`; `((S x) y) z` rewrites to
the application `(x z) (y z)` built through three hash-consed allocations in
which the two occurrences of `z` are the same node id; and concretely, with
`S, K, I, extra = term(10)` and `spine = (((S K) I) extra)`, one kernel step
returns an Application (id 9) whose left is `(K extra)` (id 7) and whose
right is `(I extra)` (id 8), the two sharing the node id of `extra` (3) as
their right child, in exactly one counted step. -/
theorem C3_head_rules :
    (∀ (A : Arena) (curr gas rem : Nat),
      kindOf A curr = KIND_NONTERM →
      kindOf A (leftOf A curr) = KIND_TERMINAL →
      symOf A (leftOf A curr) = SYM_I → 2 ≤ gas → 2 ≤ rem →
      stepIterative gas A curr EMPTY MODE_DESCEND rem EMPTY =
        some (StepRes.done (rightOf A curr), A, rem - 1, 1)) ∧
    (∀ (A : Arena) (curr gas rem : Nat),
      kindOf A curr = KIND_NONTERM →
      kindOf A (leftOf A curr) = KIND_NONTERM →
      kindOf A (leftOf A (leftOf A curr)) = KIND_TERMINAL →
      symOf A (leftOf A (leftOf A curr)) = SYM_K → 2 ≤ gas → 2 ≤ rem →
      stepIterative gas A curr EMPTY MODE_DESCEND rem EMPTY =
        some (StepRes.done (rightOf A (leftOf A curr)), A, rem - 1, 1)) ∧
    (∀ (A : Arena) (curr gas rem xz yz p : Nat) (A1 A2 A3 : Arena),
      kindOf A curr = KIND_NONTERM →
      kindOf A (leftOf A curr) = KIND_NONTERM →
      kindOf A (leftOf A (leftOf A curr)) = KIND_NONTERM →
      kindOf A (leftOf A (leftOf A (leftOf A curr))) = KIND_TERMINAL →
      symOf A (leftOf A (leftOf A (leftOf A curr))) = SYM_S → 2 ≤ gas → 2 ≤ rem →
      allocCons A (rightOf A (leftOf A (leftOf A curr))) (rightOf A curr) = some (xz, A1) →
      allocCons A1 (rightOf A (leftOf A curr)) (rightOf A curr) = some (yz, A2) →
      allocCons A2 xz yz = some (p, A3) →
      stepIterative gas A curr EMPTY MODE_DESCEND rem EMPTY =
        some (StepRes.done p, A3, rem - 1, 1)) ∧
    ((arenaKernelStep c3Arena 6).isSome = true ∧
      c3Step.1 = 9 ∧
      kindOf c3Step.2 9 = KIND_NONTERM ∧
      leftOf c3Step.2 9 = 7 ∧ rightOf c3Step.2 9 = 8 ∧
      kindOf c3Step.2 7 = KIND_NONTERM ∧
      leftOf c3Step.2 7 = 1 ∧ rightOf c3Step.2 7 = 3 ∧
      kindOf c3Step.2 8 = KIND_NONTERM ∧
      leftOf c3Step.2 8 = 2 ∧ rightOf c3Step.2 8 = 3 ∧
      rightOf c3Step.2 7 = rightOf c3Step.2 8 ∧
      kindOf c3Step.2 1 = KIND_TERMINAL ∧ symOf c3Step.2 1 = SYM_K ∧
      kindOf c3Step.2 2 = KIND_TERMINAL ∧ symOf c3Step.2 2 = SYM_I ∧
      symOf c3Step.2 3 = 10 ∧
      (stepInternal c3Arena 6).map (fun q => q.2.2) = some 1) := by
  refine ⟨?_, ?_, ?_, ?_⟩
  · intro A curr gas rem hk hlk hls hg hr
    obtain ⟨g, rfl⟩ : ∃ g, gas = g + 2 := ⟨gas - 2, by omega⟩
    obtain ⟨m, rfl⟩ : ∃ m, rem = m + 2 := ⟨rem - 2, by omega⟩
    rw [show g + 2 = (g + 1) + 1 by ring, stepIterative]
    rw [if_neg (by decide : ¬ (MODE_DESCEND = MODE_RETURN))]
    rw [if_neg (by simp [hk] : ¬ (kindOf A curr ≠ KIND_NONTERM))]
    rw [if_pos ⟨hlk, hls⟩]
    rw [if_neg (by omega : ¬ (m + 2 = 0))]
    rw [if_neg (by omega : ¬ (m + 2 - 1 = 0))]
    rw [stepIterative]
    rw [if_pos (rfl : MODE_RETURN = MODE_RETURN)]
    rw [if_pos (rfl : (EMPTY : Nat) = EMPTY)]
    simp [bumpCount]
  · intro A curr gas rem hk hlk hllk hlls hg hr
    obtain ⟨g, rfl⟩ : ∃ g, gas = g + 2 := ⟨gas - 2, by omega⟩
    obtain ⟨m, rfl⟩ : ∃ m, rem = m + 2 := ⟨rem - 2, by omega⟩
    rw [show g + 2 = (g + 1) + 1 by ring, stepIterative]
    rw [if_neg (by decide : ¬ (MODE_DESCEND = MODE_RETURN))]
    rw [if_neg (by simp [hk] : ¬ (kindOf A curr ≠ KIND_NONTERM))]
    rw [if_neg (by simp [hlk, KIND_NONTERM, KIND_TERMINAL] :
      ¬ (kindOf A (leftOf A curr) = KIND_TERMINAL ∧ symOf A (leftOf A curr) = SYM_I))]
    rw [if_pos ⟨hlk, hllk, hlls⟩]
    rw [if_neg (by omega : ¬ (m + 2 = 0))]
    rw [if_neg (by omega : ¬ (m + 2 - 1 = 0))]
    rw [stepIterative]
    rw [if_pos (rfl : MODE_RETURN = MODE_RETURN)]
    rw [if_pos (rfl : (EMPTY : Nat) = EMPTY)]
    simp [bumpCount]
  · intro A curr gas rem xz yz p A1 A2 A3 hk hlk hllk hlllk hllls hg hr h1 h2 h3
    obtain ⟨g, rfl⟩ : ∃ g, gas = g + 2 := ⟨gas - 2, by omega⟩
    obtain ⟨m, rfl⟩ : ∃ m, rem = m + 2 := ⟨rem - 2, by omega⟩
    rw [show g + 2 = (g + 1) + 1 by ring, stepIterative]
    rw [if_neg (by decide : ¬ (MODE_DESCEND = MODE_RETURN))]
    rw [if_neg (by simp [hk] : ¬ (kindOf A curr ≠ KIND_NONTERM))]
    rw [if_neg (by simp [hlk, KIND_NONTERM, KIND_TERMINAL] :
      ¬ (kindOf A (leftOf A curr) = KIND_TERMINAL ∧ symOf A (leftOf A curr) = SYM_I))]
    rw [if_neg (by simp [hllk, KIND_NONTERM, KIND_TERMINAL] :
      ¬ (kindOf A (leftOf A curr) = KIND_NONTERM ∧
         kindOf A (leftOf A (leftOf A curr)) = KIND_TERMINAL ∧
         symOf A (leftOf A (leftOf A curr)) = SYM_K))]
    rw [if_pos ⟨hlk, hllk, hlllk, hllls⟩]
    rw [if_neg (by omega : ¬ (m + 2 = 0))]
    rw [h1]
    simp only [Option.bind_eq_bind, Option.some_bind]
    rw [h2]
    simp only [Option.some_bind]
    rw [h3]
    simp only [Option.some_bind]
    rw [if_neg (by omega : ¬ (m + 2 - 1 = 0))]
    rw [stepIterative]
    rw [if_pos (rfl : MODE_RETURN = MODE_RETURN)]
    rw [if_pos (rfl : (EMPTY : Nat) = EMPTY)]
    simp [bumpCount]
  · decide

/-- Witness for C3: the I rule stepping `I S` (node 2 of the C1 scenario) to
`S`, the K rule stepping `(K extra) (I extra)` (node 9 of the post-step C3
arena) to `extra`, and the S rule stepping the spine (node 6) to node 9
through the three concrete hash-consed allocations. -/
theorem C3_head_rules_witness :
    stepIterative 2 c1Arena 2 EMPTY MODE_DESCEND 2 EMPTY =
      some (StepRes.done (rightOf c1Arena 2), c1Arena, 1, 1) ∧
    stepIterative 2 c3Step.2 9 EMPTY MODE_DESCEND 2 EMPTY =
      some (StepRes.done (rightOf c3Step.2 (leftOf c3Step.2 9)), c3Step.2, 1, 1) ∧
    stepIterative 2 c3Arena 6 EMPTY MODE_DESCEND 2 EMPTY =
      some (StepRes.done 9, c3W3, 1, 1) :=
  ⟨C3_head_rules.1 c1Arena 2 2 2 (by decide) (by decide) (by decide) (by decide) (by decide),
   C3_head_rules.2.1 c3Step.2 9 2 2 (by decide) (by decide) (by decide) (by decide)
     (by decide) (by decide),
   C3_head_rules.2.2.1 c3Arena 6 2 2 7 8 9 c3W1 c3W2 c3W3 (by decide) (by decide)
     (by decide) (by decide) (by decide) (by decide) (by decide) rfl rfl rfl⟩

theorem InChain_EMPTY {nxt : Nat → Nat} {j : Nat} (h : InChain nxt EMPTY j) : False := by
  cases h with
  | head _ hne => exact hne rfl
  | tail _ _ hne _ => exact hne rfl

theorem WFChain_head {nxt : Nat → Nat} {top c : Nat} (h : WFChain nxt top c) :
    c = EMPTY ∨ c < top := by
  cases h with
  | nil => exact Or.inl rfl
  | cons _ _ hlt _ _ => exact Or.inr hlt

theorem WFChain_mono {nxt : Nat → Nat} {top top2 c : Nat} (hle : top ≤ top2)
    (h : WFChain nxt top c) : WFChain nxt top2 c := by
  induction h with
  | nil => exact .nil
  | cons c hne hlt hdec _ ih => exact .cons c hne (lt_of_lt_of_le hlt hle) hdec ih

theorem WFChain_congr {nxt nxt2 : Nat → Nat} {top c : Nat}
    (hagree : ∀ x, x < top → nxt2 x = nxt x) (h : WFChain nxt top c) :
    WFChain nxt2 top c := by
  induction h with
  | nil => exact .nil
  | cons c hne hlt hdec _ ih =>
    refine .cons c hne hlt ?_ ?_
    · rw [hagree c hlt]; exact hdec
    · rw [hagree c hlt]; exact ih

theorem InChain_lt {nxt : Nat → Nat} {top c j : Nat} (hwf : WFChain nxt top c)
    (h : InChain nxt c j) : j < top := by
  induction h with
  | head c hne =>
    rcases WFChain_head hwf with h | h
    · exact absurd h hne
    · exact h
  | tail c j hne hj ih =>
    cases hwf with
    | nil => exact absurd rfl hne
    | cons _ _ _ _ htail => exact ih htail

theorem InChain_congr {nxt nxt2 : Nat → Nat} {top c j : Nat}
    (hagree : ∀ x, x < top → nxt2 x = nxt x)
    (hwf : WFChain nxt top c) (h : InChain nxt c j) : InChain nxt2 c j := by
  induction h with
  | head c hne => exact .head c hne
  | tail c j hne hj ih =>
    cases hwf with
    | nil => exact absurd rfl hne
    | cons _ _ hlt _ htail =>
      refine .tail c j hne ?_
      rw [hagree c hlt]
      exact ih htail

/-- Every id returned by the chain walk is an allocated id. -/
theorem lookupAux_lt {A : Arena} {hval l r top : Nat} :
    ∀ {fuel cur j : Nat}, WFChain A.next top cur →
      lookupAux A hval l r fuel cur = some j → j < top := by
  intro fuel
  induction fuel with
  | zero => intro cur j _ h; exact absurd h (by simp [lookupAux])
  | succ n ih =>
    intro cur j hwf h
    rw [lookupAux] at h
    by_cases h1 : cur = EMPTY
    · simp [h1] at h
    by_cases h2 : A.capacity ≤ cur
    · simp [h1, h2] at h
    by_cases h3 : A.kind cur = KIND_NONTERM ∧ A.hash cur = hval ∧ A.left cur = l ∧ A.right cur = r
    · simp [h1, h2, h3] at h
      subst h
      rcases WFChain_head hwf with hh | hh
      · exact absurd hh h1
      · exact hh
    · simp [h1, h2, h3] at h
      cases hwf with
      | nil => exact absurd rfl h1
      | cons _ _ _ _ htail => exact ih htail h

/-- Completeness of the chain walk: a matching chain member is found whenever
the fuel covers the (strictly decreasing) chain. -/
theorem lookupAux_finds {A : Arena} {hval l r j top : Nat} (htopcap : top ≤ A.capacity)
    (hj : A.kind j = KIND_NONTERM) (hhj : A.hash j = hval) (hlj : A.left j = l)
    (hrj : A.right j = r) :
    ∀ cur, WFChain A.next top cur → InChain A.next cur j →
      ∀ fuel, cur + 2 ≤ fuel → lookupAux A hval l r fuel cur ≠ none := by
  intro cur
  induction cur using Nat.strong_induction_on with
  | _ cur ihc =>
    intro hwf hin fuel hfuel
    cases hwf with
    | nil => exact absurd hin InChain_EMPTY
    | cons _ hne hlt hdec htail =>
      obtain ⟨f, rfl⟩ : ∃ f, fuel = f + 1 := ⟨fuel - 1, by omega⟩
      rw [lookupAux]
      rw [if_neg hne, if_neg (not_le.mpr (lt_of_lt_of_le hlt htopcap))]
      by_cases hcond : A.kind cur = KIND_NONTERM ∧ A.hash cur = hval ∧
          A.left cur = l ∧ A.right cur = r
      · rw [if_pos hcond]; simp
      · rw [if_neg hcond]
        cases hin with
        | head _ _ => exact absurd ⟨hj, hhj, hlj, hrj⟩ hcond
        | tail _ _ _ hjin =>
          rcases hdec with hd | hd
          · exact ihc (A.next cur) hd htail hjin f (by omega)
          · rw [hd] at hjin; exact absurd hjin InChain_EMPTY

theorem ArenaInv.top_lt_EMPTY {A : Arena} (h : ArenaInv A) : A.top < EMPTY :=
  lt_of_le_of_lt (le_trans h.topLe h.capUB) (by decide)

/-- The bucket rebuild of `grow` produces well-formed chains containing every
`NonTerm` id below `count`. -/
theorem rehash_spec (kind hash nextInit : Nat → Nat) (mask : Nat) :
    ∀ count, count ≤ MAX_CAP →
      (∀ b, WFChain (rehashAux kind hash nextInit mask count).2 count
        ((rehashAux kind hash nextInit mask count).1 b)) ∧
      (∀ i, i < count → kind i = KIND_NONTERM →
        InChain (rehashAux kind hash nextInit mask count).2
          ((rehashAux kind hash nextInit mask count).1 (hash i &&& mask)) i) := by
  intro count
  induction count with
  | zero => exact fun _ => ⟨fun _ => .nil, fun i hi => absurd hi (by omega)⟩
  | succ k ih =>
    intro hcount
    obtain ⟨iha, ihb⟩ := ih (by omega)
    have hkne : k ≠ EMPTY := by
      have : k < MAX_CAP := by omega
      intro h; rw [h] at this; exact absurd this (by decide)
    by_cases hknt : kind k = KIND_NONTERM
    · have hrw : rehashAux kind hash nextInit mask (k + 1) =
          (upd (rehashAux kind hash nextInit mask k).1 (hash k &&& mask) k,
           upd (rehashAux kind hash nextInit mask k).2 k
             ((rehashAux kind hash nextInit mask k).1 (hash k &&& mask))) := by
        rw [rehashAux, if_pos hknt]
      set P := rehashAux kind hash nextInit mask k with hP
      set b0 := hash k &&& mask with hb0
      have hagree : ∀ x, x < k → upd P.2 k (P.1 b0) x = P.2 x := by
        intro x hx; exact upd_ne _ _ (by omega)
      have hheadlt : P.1 b0 < k ∨ P.1 b0 = EMPTY := by
        rcases WFChain_head (iha b0) with h | h
        · exact Or.inr h
        · exact Or.inl h
      have hwf2 : ∀ b, WFChain (upd P.2 k (P.1 b0)) (k + 1) (P.1 b) := fun b =>
        WFChain_mono (by omega) (WFChain_congr hagree (iha b))
      constructor
      · intro b
        rw [hrw]
        dsimp only
        by_cases hbb : b = b0
        · subst hbb
          rw [upd_same]
          refine .cons k hkne (by omega) ?_ ?_
          · rw [upd_same]
            rcases hheadlt with h | h
            · exact Or.inl h
            · exact Or.inr h
          · rw [upd_same]; exact hwf2 b0
        · rw [upd_ne _ _ hbb]; exact hwf2 b
      · intro i hi hint
        rw [hrw]
        dsimp only
        by_cases hik : i = k
        · subst hik
          rw [upd_same]
          exact .head i hkne
        · have hik2 : i < k := by omega
          have base : InChain (upd P.2 k (P.1 b0)) (P.1 (hash i &&& mask)) i :=
            InChain_congr hagree (iha (hash i &&& mask)) (ihb i hik2 hint)
          by_cases hbb : hash i &&& mask = b0
          · rw [hbb, upd_same]
            refine .tail k i hkne ?_
            rw [upd_same]
            rw [hbb] at base
            exact base
          · rw [upd_ne _ _ hbb]
            exact base
    · have hrw : rehashAux kind hash nextInit mask (k + 1) =
          rehashAux kind hash nextInit mask k := by
        rw [rehashAux, if_neg hknt]
      rw [hrw]
      refine ⟨fun b => WFChain_mono (by omega) (iha b), fun i hi hint => ?_⟩
      by_cases hik : i = k
      · exact absurd (hik ▸ hint) hknt
      · exact ihb i (by omega) hint

/-- Effect of `grow`: the invariant is preserved, the capacity doubles, `top`
and all node fields below `top` are unchanged, and the bucket index is
rebuilt for the new mask. -/
theorem grow_spec {A A1 : Arena} (hInv : ArenaInv A) (hg : grow A = some A1) :
    ArenaInv A1 ∧ A1.top = A.top ∧ A.capacity < A1.capacity ∧
    A1.capacity = A.capacity * 2 ∧ A1.termCache = A.termCache ∧
    (∀ i, i < A.top → A1.kind i = A.kind i ∧ A1.sym i = A.sym i ∧
      A1.left i = A.left i ∧ A1.right i = A.right i ∧ A1.hash i = A.hash i) := by
  obtain ⟨k, hk⟩ := hInv.pow2
  rw [grow] at hg
  by_cases hcap : MAX_CAP ≤ A.capacity
  · simp [hcap] at hg
  rw [if_neg hcap] at hg
  simp only [] at hg
  have h1 : A.capacity * 2 ≤ MAX_CAP := by
    have hklt : k < 27 := by
      by_contra hh
      push_neg at hh
      exact hcap (by
        rw [hk]
        exact Nat.pow_le_pow_right (by norm_num) hh)
    rw [hk]
    calc 2 ^ k * 2 = 2 ^ (k + 1) := by ring
    _ ≤ 2 ^ 27 := Nat.pow_le_pow_right (by norm_num) (by omega)
  have hdouble : min (A.capacity * 2) MAX_CAP = A.capacity * 2 := min_eq_left h1
  have hcount : min A.top A.capacity = A.top := min_eq_left hInv.topLe
  rw [hdouble, hcount] at hg
  injection hg with hg
  subst hg
  have hreh := rehash_spec (fun i => if i < A.top then A.kind i else 0)
    (fun i => if i < A.top then A.hash i else 0)
    (fun i => if i < A.top then A.next i else 0)
    (A.capacity * 2 - 1) A.top (le_trans hInv.topLe (le_trans hInv.capUB (by omega)))
  have hcap2 : 1024 ≤ A.capacity := hInv.capLB
  refine ⟨?_, rfl, by show A.capacity < A.capacity * 2; omega, rfl, rfl, ?_⟩
  · refine ⟨⟨k + 1, by show A.capacity * 2 = 2 ^ (k + 1); rw [hk]; ring⟩,
      by show 1024 ≤ A.capacity * 2; omega, h1, rfl,
      by show A.top ≤ A.capacity * 2; have := hInv.topLe; omega, ?_, ?_, ?_, ?_, ?_⟩
    · intro i hki
      simp only [] at hki ⊢
      by_cases hi : i < A.top
      · simp only [if_pos hi] at hki ⊢
        exact hInv.strict i hki
      · simp only [if_neg hi] at hki
        exact absurd hki (by decide)
    · intro i hi hki
      simp only [] at hi hki ⊢
      simp only [if_pos hi] at hki ⊢
      have hc := hInv.strict i hki
      have hcl : A.left i < A.top := lt_trans hc.1 hi
      have hcr : A.right i < A.top := lt_trans hc.2 hi
      simp only [if_pos hcl, if_pos hcr]
      exact hInv.hashEq i hi hki
    · intro i j hi hj hki hkj hlij hrij
      simp only [] at hi hj hki hkj hlij hrij
      simp only [if_pos hi] at hki hlij hrij
      simp only [if_pos hj] at hkj hlij hrij
      exact hInv.uniq i j hi hj hki hkj hlij hrij
    · intro b
      exact hreh.1 b
    · intro i hi hki
      simp only [] at hi hki ⊢
      simp only [if_pos hi] at hki ⊢
      have := hreh.2 i hi (by simp only [if_pos hi]; exact hki)
      simp only [if_pos hi] at this
      exact this
  · intro i hi
    simp [if_pos hi]

/-- Invariant preservation and postconditions of the terminal publication at
the fresh id `top`. -/
theorem allocTerminalAt_spec {A : Arena} (hInv : ArenaInv A) (s : Nat)
    (htop : A.top < A.capacity) :
    ArenaInv (allocTerminalAt A s A.top).2 ∧
    (allocTerminalAt A s A.top).2.top = A.top + 1 ∧
    (allocTerminalAt A s A.top).2.capacity = A.capacity ∧
    (allocTerminalAt A s A.top).2.kind A.top = KIND_TERMINAL ∧
    (allocTerminalAt A s A.top).2.hash A.top = s ∧
    (∀ i, i < A.top → (allocTerminalAt A s A.top).2.kind i = A.kind i ∧
      (allocTerminalAt A s A.top).2.sym i = A.sym i ∧
      (allocTerminalAt A s A.top).2.left i = A.left i ∧
      (allocTerminalAt A s A.top).2.right i = A.right i ∧
      (allocTerminalAt A s A.top).2.hash i = A.hash i) := by
  have hpres : ∀ i, i < A.top → (allocTerminalAt A s A.top).2.kind i = A.kind i ∧
      (allocTerminalAt A s A.top).2.sym i = A.sym i ∧
      (allocTerminalAt A s A.top).2.left i = A.left i ∧
      (allocTerminalAt A s A.top).2.right i = A.right i ∧
      (allocTerminalAt A s A.top).2.hash i = A.hash i := by
    intro i hi
    refine ⟨upd_ne _ _ (by omega), upd_ne _ _ (by omega), rfl, rfl, upd_ne _ _ (by omega)⟩
  have htp : (allocTerminalAt A s A.top).2.top = A.top + 1 := rfl
  refine ⟨?_, rfl, rfl, upd_same _ _ _, upd_same _ _ _, hpres⟩
  refine ⟨hInv.pow2, hInv.capLB, hInv.capUB, hInv.maskEq, by show A.top + 1 ≤ A.capacity; omega,
    ?_, ?_, ?_, ?_, ?_⟩
  · intro i hki
    by_cases hit : i = A.top
    · subst hit
      rw [show (allocTerminalAt A s A.top).2.kind A.top = KIND_TERMINAL from upd_same _ _ _] at hki
      exact absurd hki (by decide)
    · rw [show (allocTerminalAt A s A.top).2.kind i = A.kind i from upd_ne _ _ hit] at hki
      exact hInv.strict i hki
  · intro i hi hki
    have hit : i ≠ A.top := by
      intro hh
      rw [hh, show (allocTerminalAt A s A.top).2.kind A.top = KIND_TERMINAL from
        upd_same _ _ _] at hki
      exact absurd hki (by decide)
    have hi2 : i < A.top := by
      have : i < A.top + 1 := hi
      omega
    rw [show (allocTerminalAt A s A.top).2.kind i = A.kind i from upd_ne _ _ hit] at hki
    have hc := hInv.strict i hki
    have hcl : A.left i ≠ A.top := by omega
    have hcr : A.right i ≠ A.top := by omega
    show upd A.hash A.top s i = mix (upd A.hash A.top s (A.left i)) (upd A.hash A.top s (A.right i))
    rw [upd_ne _ _ hit, upd_ne _ _ hcl, upd_ne _ _ hcr]
    exact hInv.hashEq i hi2 hki
  · intro i j hi hj hki hkj hlij hrij
    have hit : i ≠ A.top := by
      intro hh
      rw [hh] at hki
      rw [show (allocTerminalAt A s A.top).2.kind A.top = KIND_TERMINAL from upd_same _ _ _] at hki
      exact absurd hki (by decide)
    have hjt : j ≠ A.top := by
      intro hh
      rw [hh] at hkj
      rw [show (allocTerminalAt A s A.top).2.kind A.top = KIND_TERMINAL from upd_same _ _ _] at hkj
      exact absurd hkj (by decide)
    rw [show (allocTerminalAt A s A.top).2.kind i = A.kind i from upd_ne _ _ hit] at hki
    rw [show (allocTerminalAt A s A.top).2.kind j = A.kind j from upd_ne _ _ hjt] at hkj
    exact hInv.uniq i j (by omega) (by omega) hki hkj hlij hrij
  · intro b
    exact WFChain_mono (by omega) (hInv.chains b)
  · intro i hi hki
    have hit : i ≠ A.top := by
      intro hh
      rw [hh] at hki
      rw [show (allocTerminalAt A s A.top).2.kind A.top = KIND_TERMINAL from upd_same _ _ _] at hki
      exact absurd hki (by decide)
    have hi2 : i < A.top := by
      have : i < A.top + 1 := hi
      omega
    rw [show (allocTerminalAt A s A.top).2.kind i = A.kind i from upd_ne _ _ hit] at hki
    show InChain A.next (A.buckets (upd A.hash A.top s i &&& A.bucketMask)) i
    rw [upd_ne _ _ hit]
    exact hInv.memb i hi2 hki

/-- Invariant preservation and postconditions of `alloc_generic`'s
publication at the fresh id `top`, for non-application kinds. -/
theorem allocGenericAt_spec {A : Arena} (hInv : ArenaInv A) {k : Nat} (s l r hh : Nat)
    (hknt : k ≠ KIND_NONTERM) (htop : A.top < A.capacity) :
    ArenaInv (allocGenericAt A k s l r hh A.top).2 ∧
    (allocGenericAt A k s l r hh A.top).2.top = A.top + 1 ∧
    (allocGenericAt A k s l r hh A.top).2.capacity = A.capacity ∧
    (allocGenericAt A k s l r hh A.top).2.kind A.top = k ∧
    (allocGenericAt A k s l r hh A.top).2.sym A.top = s ∧
    (allocGenericAt A k s l r hh A.top).2.left A.top = l ∧
    (allocGenericAt A k s l r hh A.top).2.right A.top = r ∧
    (allocGenericAt A k s l r hh A.top).2.hash A.top = hh ∧
    (∀ i, i < A.top → (allocGenericAt A k s l r hh A.top).2.kind i = A.kind i ∧
      (allocGenericAt A k s l r hh A.top).2.sym i = A.sym i ∧
      (allocGenericAt A k s l r hh A.top).2.left i = A.left i ∧
      (allocGenericAt A k s l r hh A.top).2.right i = A.right i ∧
      (allocGenericAt A k s l r hh A.top).2.hash i = A.hash i) := by
  have hpres : ∀ i, i < A.top → (allocGenericAt A k s l r hh A.top).2.kind i = A.kind i ∧
      (allocGenericAt A k s l r hh A.top).2.sym i = A.sym i ∧
      (allocGenericAt A k s l r hh A.top).2.left i = A.left i ∧
      (allocGenericAt A k s l r hh A.top).2.right i = A.right i ∧
      (allocGenericAt A k s l r hh A.top).2.hash i = A.hash i := by
    intro i hi
    exact ⟨upd_ne _ _ (by omega), upd_ne _ _ (by omega), upd_ne _ _ (by omega),
      upd_ne _ _ (by omega), upd_ne _ _ (by omega)⟩
  have htp : (allocGenericAt A k s l r hh A.top).2.top = A.top + 1 := rfl
  refine ⟨?_, rfl, rfl, upd_same _ _ _, upd_same _ _ _, upd_same _ _ _, upd_same _ _ _,
    upd_same _ _ _, hpres⟩
  have hkind : ∀ i, i ≠ A.top →
      (allocGenericAt A k s l r hh A.top).2.kind i = A.kind i := fun i hi => upd_ne _ _ hi
  have hkindt : (allocGenericAt A k s l r hh A.top).2.kind A.top = k := upd_same _ _ _
  refine ⟨hInv.pow2, hInv.capLB, hInv.capUB, hInv.maskEq,
    by show A.top + 1 ≤ A.capacity; omega, ?_, ?_, ?_, ?_, ?_⟩
  · intro i hki
    by_cases hit : i = A.top
    · subst hit
      rw [hkindt] at hki
      exact absurd hki hknt
    · rw [hkind i hit] at hki
      show upd A.left A.top l i < i ∧ upd A.right A.top r i < i
      rw [upd_ne _ _ hit, upd_ne _ _ hit]
      exact hInv.strict i hki
  · intro i hi hki
    by_cases hit : i = A.top
    · subst hit
      rw [hkindt] at hki
      exact absurd hki hknt
    · rw [hkind i hit] at hki
      have hi2 : i < A.top := by
        have : i < A.top + 1 := hi
        omega
      have hc := hInv.strict i hki
      show upd A.hash A.top hh i =
        mix (upd A.hash A.top hh (upd A.left A.top l i))
          (upd A.hash A.top hh (upd A.right A.top r i))
      rw [upd_ne _ _ hit, upd_ne A.left _ hit, upd_ne A.right _ hit,
        upd_ne _ _ (by omega : A.left i ≠ A.top), upd_ne _ _ (by omega : A.right i ≠ A.top)]
      exact hInv.hashEq i hi2 hki
  · intro i j hi hj hki hkj hlij hrij
    by_cases hit : i = A.top
    · subst hit; rw [hkindt] at hki; exact absurd hki hknt
    by_cases hjt : j = A.top
    · subst hjt; rw [hkindt] at hkj; exact absurd hkj hknt
    rw [hkind i hit] at hki
    rw [hkind j hjt] at hkj
    rw [show (allocGenericAt A k s l r hh A.top).2.left i = A.left i from upd_ne _ _ hit,
      show (allocGenericAt A k s l r hh A.top).2.left j = A.left j from upd_ne _ _ hjt] at hlij
    rw [show (allocGenericAt A k s l r hh A.top).2.right i = A.right i from upd_ne _ _ hit,
      show (allocGenericAt A k s l r hh A.top).2.right j = A.right j from upd_ne _ _ hjt] at hrij
    exact hInv.uniq i j (by omega) (by omega) hki hkj hlij hrij
  · intro b
    exact WFChain_mono (by omega) (hInv.chains b)
  · intro i hi hki
    by_cases hit : i = A.top
    · subst hit; rw [hkindt] at hki; exact absurd hki hknt
    rw [hkind i hit] at hki
    have hi2 : i < A.top := by
      have : i < A.top + 1 := hi
      omega
    show InChain A.next (A.buckets (upd A.hash A.top hh i &&& A.bucketMask)) i
    rw [upd_ne _ _ hit]
    exact hInv.memb i hi2 hki

/-- Invariant preservation of the in-place frame rewrite
`update_continuation`, for arbitrary arguments. -/
theorem updateContinuation_inv {A : Arena} (hInv : ArenaInv A) (id p t st : Nat) :
    ArenaInv (updateContinuation A id p t st) := by
  have hkindt : (updateContinuation A id p t st).kind id = KIND_CONTINUATION := upd_same _ _ _
  have hkind : ∀ i, i ≠ id → (updateContinuation A id p t st).kind i = A.kind i :=
    fun i hi => upd_ne _ _ hi
  refine ⟨hInv.pow2, hInv.capLB, hInv.capUB, hInv.maskEq, hInv.topLe, ?_, ?_, ?_, ?_, ?_⟩
  · intro i hki
    by_cases hit : i = id
    · subst hit
      rw [hkindt] at hki
      exact absurd hki (by decide)
    · rw [hkind i hit] at hki
      show upd A.left id p i < i ∧ upd A.right id t i < i
      rw [upd_ne _ _ hit, upd_ne _ _ hit]
      exact hInv.strict i hki
  · intro i hi hki
    by_cases hit : i = id
    · subst hit; rw [hkindt] at hki; exact absurd hki (by decide)
    · rw [hkind i hit] at hki
      show A.hash i = mix (A.hash (upd A.left id p i)) (A.hash (upd A.right id t i))
      rw [upd_ne _ _ hit, upd_ne _ _ hit]
      exact hInv.hashEq i hi hki
  · intro i j hi hj hki hkj hlij hrij
    by_cases hit : i = id
    · subst hit; rw [hkindt] at hki; exact absurd hki (by decide)
    by_cases hjt : j = id
    · subst hjt; rw [hkindt] at hkj; exact absurd hkj (by decide)
    rw [hkind i hit] at hki
    rw [hkind j hjt] at hkj
    rw [show (updateContinuation A id p t st).left i = A.left i from upd_ne _ _ hit,
      show (updateContinuation A id p t st).left j = A.left j from upd_ne _ _ hjt] at hlij
    rw [show (updateContinuation A id p t st).right i = A.right i from upd_ne _ _ hit,
      show (updateContinuation A id p t st).right j = A.right j from upd_ne _ _ hjt] at hrij
    exact hInv.uniq i j hi hj hki hkj hlij hrij
  · intro b
    exact hInv.chains b
  · intro i hi hki
    by_cases hit : i = id
    · subst hit; rw [hkindt] at hki; exact absurd hki (by decide)
    rw [hkind i hit] at hki
    exact hInv.memb i hi hki

/-- Invariant preservation of hole marking, for arbitrary arguments. -/
theorem markHole_inv {A : Arena} (hInv : ArenaInv A) (id : Nat) :
    ArenaInv (markHole A id) := by
  have hkindt : (markHole A id).kind id = 0 := upd_same _ _ _
  have hkind : ∀ i, i ≠ id → (markHole A id).kind i = A.kind i := fun i hi => upd_ne _ _ hi
  refine ⟨hInv.pow2, hInv.capLB, hInv.capUB, hInv.maskEq, hInv.topLe, ?_, ?_, ?_, ?_, ?_⟩
  · intro i hki
    by_cases hit : i = id
    · subst hit; rw [hkindt] at hki; exact absurd hki (by decide)
    · rw [hkind i hit] at hki
      exact hInv.strict i hki
  · intro i hi hki
    by_cases hit : i = id
    · subst hit; rw [hkindt] at hki; exact absurd hki (by decide)
    · rw [hkind i hit] at hki
      exact hInv.hashEq i hi hki
  · intro i j hi hj hki hkj hlij hrij
    by_cases hit : i = id
    · subst hit; rw [hkindt] at hki; exact absurd hki (by decide)
    by_cases hjt : j = id
    · subst hjt; rw [hkindt] at hkj; exact absurd hkj (by decide)
    rw [hkind i hit] at hki
    rw [hkind j hjt] at hkj
    exact hInv.uniq i j hi hj hki hkj hlij hrij
  · intro b
    exact hInv.chains b
  · intro i hi hki
    by_cases hit : i = id
    · subst hit; rw [hkindt] at hki; exact absurd hki (by decide)
    rw [hkind i hit] at hki
    exact hInv.memb i hi hki

/-- Invariant preservation of `reset`. -/
theorem resetArena_inv {A : Arena} (hInv : ArenaInv A) : ArenaInv (resetArena A) := by
  refine ⟨hInv.pow2, hInv.capLB, hInv.capUB, hInv.maskEq, by show 0 ≤ A.capacity; omega,
    hInv.strict, ?_, ?_, ?_, ?_⟩
  · intro i hi
    exact absurd hi (by show ¬ i < 0; omega)
  · intro i j hi
    exact absurd hi (by show ¬ i < 0; omega)
  · intro b
    exact .nil
  · intro i hi
    exact absurd hi (by show ¬ i < 0; omega)

/-- Invariant preservation of the initialized arena. -/
theorem initArena_inv {k : Nat} (h1 : 10 ≤ k) (h2 : k ≤ 27) : ArenaInv (initArena (2 ^ k)) := by
  refine ⟨⟨k, rfl⟩,
    by show 1024 ≤ 2 ^ k
       calc (1024 : Nat) = 2 ^ 10 := by norm_num
       _ ≤ 2 ^ k := Nat.pow_le_pow_right (by norm_num) h1,
    by show (2 : Nat) ^ k ≤ 2 ^ 27
       exact Nat.pow_le_pow_right (by norm_num) h2,
    rfl, Nat.zero_le _, ?_, ?_, ?_, ?_, ?_⟩
  · intro i hki
    exact absurd hki (by show ¬ (0 : Nat) = KIND_NONTERM; decide)
  · intro i hi
    exact absurd hi (by show ¬ i < 0; omega)
  · intro i j hi
    exact absurd hi (by show ¬ i < 0; omega)
  · intro b
    exact .nil
  · intro i hi
    exact absurd hi (by show ¬ i < 0; omega)

/-- Invariant preservation of `allocTerminal`, through the cache, fresh and
grow-then-retry paths. -/
theorem allocTerminal_inv {A : Arena} {s id : Nat} {A1 : Arena} (hInv : ArenaInv A)
    (h : allocTerminal A s = some (id, A1)) :
    ArenaInv A1 ∧ A.top ≤ A1.top ∧
    (∀ i, i < A.top → A1.kind i = A.kind i ∧ A1.sym i = A.sym i ∧
      A1.left i = A.left i ∧ A1.right i = A.right i ∧ A1.hash i = A.hash i) := by
  rw [allocTerminal] at h
  by_cases hc : s < 4 ∧ A.termCache s ≠ EMPTY
  · rw [if_pos hc] at h
    injection h with h
    injection h with h1 h2
    subst h2
    exact ⟨hInv, le_refl _, fun i _ => ⟨rfl, rfl, rfl, rfl, rfl⟩⟩
  · rw [if_neg hc] at h
    by_cases htop : A.top < A.capacity
    · rw [if_pos htop] at h
      injection h with h
      injection h with h1 h2
      subst h2
      obtain ⟨hI, htp, _, _, _, hpres⟩ := allocTerminalAt_spec hInv s htop
      exact ⟨hI, by show A.top ≤ A.top + 1; omega, hpres⟩
    · rw [if_neg htop] at h
      cases hg : grow A with
      | none => rw [hg] at h; simp at h
      | some A2 =>
        rw [hg] at h
        simp only [Option.bind_eq_bind, Option.some_bind] at h
        injection h with h
        injection h with h1 h2
        subst h2
        obtain ⟨hI2, h2top, h2lt, _, _, hpres2⟩ := grow_spec hInv hg
        have hlt2 : A2.top < A2.capacity := by
          have := hInv.topLe
          omega
        obtain ⟨hI3, htp3, _, _, _, hpres3⟩ := allocTerminalAt_spec hI2 s hlt2
        refine ⟨hI3, by show A.top ≤ A2.top + 1; omega, fun i hi => ?_⟩
        have hiA2 : i < A2.top := by omega
        obtain ⟨p1, p2, p3, p4, p5⟩ := hpres3 i hiA2
        obtain ⟨q1, q2, q3, q4, q5⟩ := hpres2 i hi
        exact ⟨p1.trans q1, p2.trans q2, p3.trans q3, p4.trans q4, p5.trans q5⟩

/-- Postconditions of `alloc_generic` for non-application kinds: invariant
preservation, the published fields at the fresh id, and preservation of the
fields of every previously allocated id. -/
theorem allocGeneric_spec {A : Arena} {k s l r hh id : Nat} {A1 : Arena} (hInv : ArenaInv A)
    (hknt : k ≠ KIND_NONTERM) (h : allocGeneric A k s l r hh = some (id, A1)) :
    ArenaInv A1 ∧ id = A.top ∧ A1.top = A.top + 1 ∧ id ≠ EMPTY ∧
    A1.kind id = k ∧ A1.sym id = s ∧ A1.left id = l ∧ A1.right id = r ∧ A1.hash id = hh ∧
    (∀ i, i < A.top → A1.kind i = A.kind i ∧ A1.sym i = A.sym i ∧
      A1.left i = A.left i ∧ A1.right i = A.right i ∧ A1.hash i = A.hash i) := by
  have hne : A.top ≠ EMPTY := by
    have := hInv.top_lt_EMPTY
    omega
  rw [allocGeneric] at h
  by_cases htop : A.top < A.capacity
  · rw [if_pos htop] at h
    injection h with h
    injection h with h1 h2
    subst h2
    subst h1
    obtain ⟨hI, htp, _, hk2, hs2, hl2, hr2, hh2, hpres⟩ := allocGenericAt_spec hInv s l r hh hknt htop
    exact ⟨hI, rfl, htp, hne, hk2, hs2, hl2, hr2, hh2, hpres⟩
  · rw [if_neg htop] at h
    cases hg : grow A with
    | none => rw [hg] at h; simp at h
    | some A2 =>
      rw [hg] at h
      simp only [Option.bind_eq_bind, Option.some_bind] at h
      injection h with h
      injection h with h1 h2
      subst h2
      subst h1
      obtain ⟨hI2, h2top, h2lt, _, _, hpres2⟩ := grow_spec hInv hg
      have hlt2 : A2.top < A2.capacity := by
        have := hInv.topLe
        omega
      obtain ⟨hI3, htp3, _, hk3, hs3, hl3, hr3, hh3, hpres3⟩ :=
        allocGenericAt_spec hI2 s l r hh hknt hlt2
      refine ⟨hI3, h2top, by show A2.top + 1 = A.top + 1; omega,
        by show A2.top ≠ EMPTY; omega, hk3, hs3, hl3, hr3, hh3, fun i hi => ?_⟩
      have hiA2 : i < A2.top := by omega
      obtain ⟨p1, p2, p3, p4, p5⟩ := hpres3 i hiA2
      obtain ⟨q1, q2, q3, q4, q5⟩ := hpres2 i hi
      exact ⟨p1.trans q1, p2.trans q2, p3.trans q3, p4.trans q4, p5.trans q5⟩

/-- Invariant preservation and postconditions of the fresh application
publication plus bucket insertion, under the assumptions that the children
are allocated ids and that no equal application is already present. -/
theorem allocConsAt_spec {A : Arena} {l r hval : Nat} (hInv : ArenaInv A)
    (htop : A.top < A.capacity) (hl : l < A.top) (hr : r < A.top)
    (hhv : hval = mix (A.hash l) (A.hash r))
    (hnf : ∀ j, j < A.top → A.kind j = KIND_NONTERM → A.left j = l → A.right j = r → False) :
    ArenaInv (allocConsAt A l r hval A.top).2 ∧
    (allocConsAt A l r hval A.top).2.top = A.top + 1 ∧
    (allocConsAt A l r hval A.top).2.kind A.top = KIND_NONTERM ∧
    (allocConsAt A l r hval A.top).2.left A.top = l ∧
    (allocConsAt A l r hval A.top).2.right A.top = r ∧
    (allocConsAt A l r hval A.top).2.hash A.top = hval ∧
    (∀ i, i < A.top → (allocConsAt A l r hval A.top).2.kind i = A.kind i ∧
      (allocConsAt A l r hval A.top).2.sym i = A.sym i ∧
      (allocConsAt A l r hval A.top).2.left i = A.left i ∧
      (allocConsAt A l r hval A.top).2.right i = A.right i ∧
      (allocConsAt A l r hval A.top).2.hash i = A.hash i) := by
  have hne : A.top ≠ EMPTY := by
    have := hInv.top_lt_EMPTY
    omega
  have htp : (allocConsAt A l r hval A.top).2.top = A.top + 1 := rfl
  have hpres : ∀ i, i < A.top → (allocConsAt A l r hval A.top).2.kind i = A.kind i ∧
      (allocConsAt A l r hval A.top).2.sym i = A.sym i ∧
      (allocConsAt A l r hval A.top).2.left i = A.left i ∧
      (allocConsAt A l r hval A.top).2.right i = A.right i ∧
      (allocConsAt A l r hval A.top).2.hash i = A.hash i := by
    intro i hi
    exact ⟨upd_ne _ _ (by omega), rfl, upd_ne _ _ (by omega), upd_ne _ _ (by omega),
      upd_ne _ _ (by omega)⟩
  have hagree : ∀ x, x < A.top →
      (allocConsAt A l r hval A.top).2.next x = A.next x := by
    intro x hx
    exact upd_ne _ _ (by omega)
  have hkindt : (allocConsAt A l r hval A.top).2.kind A.top = KIND_NONTERM := upd_same _ _ _
  have hkind : ∀ i, i ≠ A.top → (allocConsAt A l r hval A.top).2.kind i = A.kind i :=
    fun i hi => upd_ne _ _ hi
  refine ⟨?_, rfl, hkindt, upd_same _ _ _, upd_same _ _ _, upd_same _ _ _, hpres⟩
  refine ⟨hInv.pow2, hInv.capLB, hInv.capUB, hInv.maskEq,
    by show A.top + 1 ≤ A.capacity; omega, ?_, ?_, ?_, ?_, ?_⟩
  · intro i hki
    by_cases hit : i = A.top
    · subst hit
      show upd A.left A.top l A.top < A.top ∧ upd A.right A.top r A.top < A.top
      rw [upd_same, upd_same]
      exact ⟨hl, hr⟩
    · rw [hkind i hit] at hki
      show upd A.left A.top l i < i ∧ upd A.right A.top r i < i
      rw [upd_ne _ _ hit, upd_ne _ _ hit]
      exact hInv.strict i hki
  · intro i hi hki
    by_cases hit : i = A.top
    · subst hit
      show upd A.hash A.top hval A.top =
        mix (upd A.hash A.top hval (upd A.left A.top l A.top))
          (upd A.hash A.top hval (upd A.right A.top r A.top))
      rw [upd_same, upd_same, upd_same, upd_ne _ _ (by omega : l ≠ A.top),
        upd_ne _ _ (by omega : r ≠ A.top)]
      exact hhv
    · rw [hkind i hit] at hki
      have hi2 : i < A.top := by
        have : i < A.top + 1 := hi
        omega
      have hc := hInv.strict i hki
      show upd A.hash A.top hval i =
        mix (upd A.hash A.top hval (upd A.left A.top l i))
          (upd A.hash A.top hval (upd A.right A.top r i))
      rw [upd_ne _ _ hit, upd_ne A.left _ hit, upd_ne A.right _ hit,
        upd_ne _ _ (by omega : A.left i ≠ A.top), upd_ne _ _ (by omega : A.right i ≠ A.top)]
      exact hInv.hashEq i hi2 hki
  · intro i j hi hj hki hkj hlij hrij
    by_cases hit : i = A.top <;> by_cases hjt : j = A.top
    · omega
    · subst hit
      rw [hkind j hjt] at hkj
      rw [show (allocConsAt A l r hval A.top).2.left A.top = l from upd_same _ _ _,
        show (allocConsAt A l r hval A.top).2.left j = A.left j from upd_ne _ _ hjt] at hlij
      rw [show (allocConsAt A l r hval A.top).2.right A.top = r from upd_same _ _ _,
        show (allocConsAt A l r hval A.top).2.right j = A.right j from upd_ne _ _ hjt] at hrij
      exact (hnf j (by omega) hkj hlij.symm hrij.symm).elim
    · subst hjt
      rw [hkind i hit] at hki
      rw [show (allocConsAt A l r hval A.top).2.left A.top = l from upd_same _ _ _,
        show (allocConsAt A l r hval A.top).2.left i = A.left i from upd_ne _ _ hit] at hlij
      rw [show (allocConsAt A l r hval A.top).2.right A.top = r from upd_same _ _ _,
        show (allocConsAt A l r hval A.top).2.right i = A.right i from upd_ne _ _ hit] at hrij
      exact (hnf i (by omega) hki hlij hrij).elim
    · rw [hkind i hit] at hki
      rw [hkind j hjt] at hkj
      rw [show (allocConsAt A l r hval A.top).2.left i = A.left i from upd_ne _ _ hit,
        show (allocConsAt A l r hval A.top).2.left j = A.left j from upd_ne _ _ hjt] at hlij
      rw [show (allocConsAt A l r hval A.top).2.right i = A.right i from upd_ne _ _ hit,
        show (allocConsAt A l r hval A.top).2.right j = A.right j from upd_ne _ _ hjt] at hrij
      exact hInv.uniq i j (by omega) (by omega) hki hkj hlij hrij
  · intro b2
    by_cases hbb : b2 = (hval &&& A.bucketMask)
    · subst hbb
      show WFChain (allocConsAt A l r hval A.top).2.next (A.top + 1)
        (upd A.buckets (hval &&& A.bucketMask) A.top (hval &&& A.bucketMask))
      rw [upd_same]
      refine .cons A.top hne (by omega) ?_ ?_
      · show upd A.next A.top (A.buckets (hval &&& A.bucketMask)) A.top < A.top ∨
          upd A.next A.top (A.buckets (hval &&& A.bucketMask)) A.top = EMPTY
        rw [upd_same]
        rcases WFChain_head (hInv.chains (hval &&& A.bucketMask)) with h | h
        · exact Or.inr h
        · exact Or.inl h
      · show WFChain (allocConsAt A l r hval A.top).2.next (A.top + 1)
          (upd A.next A.top (A.buckets (hval &&& A.bucketMask)) A.top)
        rw [upd_same]
        exact WFChain_mono (by omega)
          (WFChain_congr hagree (hInv.chains (hval &&& A.bucketMask)))
    · show WFChain (allocConsAt A l r hval A.top).2.next (A.top + 1)
        (upd A.buckets (hval &&& A.bucketMask) A.top b2)
      rw [upd_ne _ _ hbb]
      exact WFChain_mono (by omega) (WFChain_congr hagree (hInv.chains b2))
  · intro i hi hki
    by_cases hit : i = A.top
    · subst hit
      show InChain (allocConsAt A l r hval A.top).2.next
        ((allocConsAt A l r hval A.top).2.buckets
          (upd A.hash A.top hval A.top &&& A.bucketMask)) A.top
      rw [upd_same]
      show InChain (allocConsAt A l r hval A.top).2.next
        (upd A.buckets (hval &&& A.bucketMask) A.top (hval &&& A.bucketMask)) A.top
      rw [upd_same]
      exact .head A.top hne
    · rw [hkind i hit] at hki
      have hi2 : i < A.top := by
        have : i < A.top + 1 := hi
        omega
      have base : InChain (allocConsAt A l r hval A.top).2.next
          (A.buckets (A.hash i &&& A.bucketMask)) i :=
        InChain_congr hagree (hInv.chains (A.hash i &&& A.bucketMask)) (hInv.memb i hi2 hki)
      show InChain (allocConsAt A l r hval A.top).2.next
        ((allocConsAt A l r hval A.top).2.buckets (upd A.hash A.top hval i &&& A.bucketMask)) i
      rw [upd_ne _ _ hit]
      by_cases hbb : A.hash i &&& A.bucketMask = (hval &&& A.bucketMask)
      · rw [hbb]
        show InChain (allocConsAt A l r hval A.top).2.next
          (upd A.buckets (hval &&& A.bucketMask) A.top (hval &&& A.bucketMask)) i
        rw [upd_same]
        refine .tail A.top i hne ?_
        show InChain (allocConsAt A l r hval A.top).2.next
          (upd A.next A.top (A.buckets (hval &&& A.bucketMask)) A.top) i
        rw [upd_same, ← hbb]
        exact base
      · show InChain (allocConsAt A l r hval A.top).2.next
          (upd A.buckets (hval &&& A.bucketMask) A.top (A.hash i &&& A.bucketMask)) i
        rw [upd_ne _ _ hbb]
        exact base

/-- Lookup completeness at the `allocCons` call site: if an application node
with children `(l, r)` is allocated, the chain walk cannot miss. -/
theorem lookup_complete {A : Arena} {l r j : Nat} (hInv : ArenaInv A)
    (hj : j < A.top) (hkj : A.kind j = KIND_NONTERM) (hlj : A.left j = l)
    (hrj : A.right j = r) :
    lookupAux A (mix (A.hash l) (A.hash r)) l r (A.top + 1)
      (A.buckets (mix (A.hash l) (A.hash r) &&& A.bucketMask)) ≠ none := by
  have hhash : A.hash j = mix (A.hash l) (A.hash r) := by
    have := hInv.hashEq j hj hkj
    rw [hlj, hrj] at this
    exact this
  have hmem := hInv.memb j hj hkj
  rw [hhash] at hmem
  have hwf := hInv.chains (mix (A.hash l) (A.hash r) &&& A.bucketMask)
  rcases WFChain_head hwf with hh | hh
  · rw [hh] at hmem
    exact absurd hmem InChain_EMPTY
  · exact lookupAux_finds hInv.topLe hkj hhash hlj hrj _ hwf hmem (A.top + 1) (by omega)

/-- Postconditions of `allocCons` on allocated children: invariant
preservation, a valid returned application id with the requested children,
and preservation of all previously allocated ids' fields. -/
theorem allocCons_spec {A : Arena} {l r id : Nat} {A1 : Arena} (hInv : ArenaInv A)
    (hl : l < A.top) (hr : r < A.top) (h : allocCons A l r = some (id, A1)) :
    ArenaInv A1 ∧ A.top ≤ A1.top ∧ id < A1.top ∧ id ≠ EMPTY ∧
    A1.kind id = KIND_NONTERM ∧ A1.left id = l ∧ A1.right id = r ∧
    (∀ i, i < A.top → A1.kind i = A.kind i ∧ A1.sym i = A.sym i ∧
      A1.left i = A.left i ∧ A1.right i = A.right i ∧ A1.hash i = A.hash i) := by
  have hlc : ¬ A.capacity ≤ l := not_le.mpr (lt_of_lt_of_le hl hInv.topLe)
  have hrc : ¬ A.capacity ≤ r := not_le.mpr (lt_of_lt_of_le hr hInv.topLe)
  have hne : A.top ≠ EMPTY := by
    have := hInv.top_lt_EMPTY
    omega
  rw [allocCons, if_neg hlc, if_neg hrc] at h
  simp only [] at h
  cases hlu : lookupAux A (mix (A.hash l) (A.hash r)) l r (A.top + 1)
      (A.buckets (mix (A.hash l) (A.hash r) &&& A.bucketMask)) with
  | some found =>
    rw [hlu] at h
    injection h with h
    injection h with h1 h2
    subst h2
    subst h1
    obtain ⟨k1, _, k3, k4, _, k6⟩ := lookupAux_some hlu
    have hfl : found < A.top :=
      lookupAux_lt (hInv.chains (mix (A.hash l) (A.hash r) &&& A.bucketMask)) hlu
    exact ⟨hInv, le_refl _, hfl, k6, k1, k3, k4, fun i _ => ⟨rfl, rfl, rfl, rfl, rfl⟩⟩
  | none =>
    rw [hlu] at h
    have hnf : ∀ j, j < A.top → A.kind j = KIND_NONTERM → A.left j = l →
        A.right j = r → False := by
      intro j hj hkj hlj hrj
      exact lookup_complete hInv hj hkj hlj hrj hlu
    by_cases htop : A.top < A.capacity
    · rw [if_pos htop] at h
      injection h with h
      injection h with h1 h2
      subst h2
      subst h1
      obtain ⟨hI, htp, hk2, hl2, hr2, _, hpres⟩ := allocConsAt_spec hInv htop hl hr rfl hnf
      exact ⟨hI, by show A.top ≤ A.top + 1; omega, by show A.top < A.top + 1; omega, hne,
        hk2, hl2, hr2, hpres⟩
    · rw [if_neg htop] at h
      cases hg : grow A with
      | none => rw [hg] at h; simp at h
      | some A2 =>
        rw [hg] at h
        simp only [Option.bind_eq_bind, Option.some_bind] at h
        injection h with h
        injection h with h1 h2
        subst h2
        subst h1
        obtain ⟨hI2, h2top, h2lt, _, _, hpres2⟩ := grow_spec hInv hg
        have hlt2 : A2.top < A2.capacity := by
          have := hInv.topLe
          omega
        have hl2 : l < A2.top := by omega
        have hr2 : r < A2.top := by omega
        have hhv2 : mix (A.hash l) (A.hash r) = mix (A2.hash l) (A2.hash r) := by
          rw [(hpres2 l hl).2.2.2.2, (hpres2 r hr).2.2.2.2]
        have hnf2 : ∀ j, j < A2.top → A2.kind j = KIND_NONTERM → A2.left j = l →
            A2.right j = r → False := by
          intro j hj hkj hlj hrj
          have hjA : j < A.top := by omega
          obtain ⟨q1, _, q3, q4, _⟩ := hpres2 j hjA
          exact hnf j hjA (q1 ▸ hkj) (q3 ▸ hlj) (q4 ▸ hrj)
        obtain ⟨hI3, htp3, hk3, hl3, hr3, _, hpres3⟩ :=
          allocConsAt_spec hI2 hlt2 hl2 hr2 hhv2 hnf2
        have hneA2 : A2.top ≠ EMPTY := by
          have := hI2.top_lt_EMPTY
          omega
        refine ⟨hI3, by show A.top ≤ A2.top + 1; omega, by show A2.top < A2.top + 1; omega,
          hneA2, hk3, hl3, hr3, fun i hi => ?_⟩
        have hiA2 : i < A2.top := by omega
        obtain ⟨p1, p2, p3, p4, p5⟩ := hpres3 i hiA2
        obtain ⟨q1, q2, q3, q4, q5⟩ := hpres2 i hi
        exact ⟨p1.trans q1, p2.trans q2, p3.trans q3, p4.trans q4, p5.trans q5⟩

/-- Dedup: `allocCons` on the children of an existing application returns
exactly that application's id and leaves the arena unchanged. -/
theorem allocCons_existing {A : Arena} {i l r : Nat} (hInv : ArenaInv A) (hi : i < A.top)
    (hk : A.kind i = KIND_NONTERM) (hli : A.left i = l) (hri : A.right i = r) :
    allocCons A l r = some (i, A) := by
  have hc := hInv.strict i hk
  have hl : l < A.top := by omega
  have hr : r < A.top := by omega
  have hlc : ¬ A.capacity ≤ l := not_le.mpr (lt_of_lt_of_le hl hInv.topLe)
  have hrc : ¬ A.capacity ≤ r := not_le.mpr (lt_of_lt_of_le hr hInv.topLe)
  rw [allocCons, if_neg hlc, if_neg hrc]
  simp only []
  cases hlu : lookupAux A (mix (A.hash l) (A.hash r)) l r (A.top + 1)
      (A.buckets (mix (A.hash l) (A.hash r) &&& A.bucketMask)) with
  | none => exact absurd hlu (lookup_complete hInv hi hk hli hri)
  | some found =>
    obtain ⟨k1, _, k3, k4, _, _⟩ := lookupAux_some hlu
    have hfl : found < A.top :=
      lookupAux_lt (hInv.chains (mix (A.hash l) (A.hash r) &&& A.bucketMask)) hlu
    have heq : found = i :=
      hInv.uniq found i hfl hi k1 hk (by rw [k3, hli]) (by rw [k4, hri])
    rw [heq]

/-- Every reachable state satisfies the arena invariant. -/
theorem reachable_inv {A : Arena} (h : Reachable A) : ArenaInv A := by
  induction h with
  | init k h1 h2 => exact initArena_inv h1 h2
  | termStep A s id A1 hA h ih => exact (allocTerminal_inv ih h).1
  | consStep A l r id A1 hA hl hr h ih => exact (allocCons_spec ih hl hr h).1
  | contStep A p t st id A1 hA h ih =>
    rw [allocContinuation] at h
    exact (allocGeneric_spec ih (by decide) h).1
  | suspStep A c st m rem id A1 hA h ih =>
    rw [allocSuspension] at h
    exact (allocGeneric_spec ih (by decide) h).1
  | updateStep A id p t st hA ih => exact updateContinuation_inv ih id p t st
  | holeStep A id hA ih => exact markHole_inv ih id
  | resetStep A hA ih => exact resetArena_inv ih
  | growStep A A1 hA h ih => exact (grow_spec ih h).1

/-- The C1 scenario arena is reachable. -/
theorem c1Arena_reachable : Reachable c1Arena := by
  have h0 : Reachable (initArena (2 ^ 10)) := .init 10 (by decide) (by decide)
  have h1 : Reachable c1A1 := .termStep c1A0 1 0 c1A1 h0 rfl
  have h2 : Reachable c1A2 := .termStep c1A1 3 1 c1A2 h1 rfl
  have h3 : Reachable c1A3 := .consStep c1A2 1 0 2 c1A3 h2 (by decide) (by decide) rfl
  have h4 : Reachable c1A4 := .consStep c1A3 1 2 3 c1A4 h3 (by decide) (by decide) rfl
  exact .consStep c1A4 1 3 4 c1Arena h4 (by decide) (by decide) rfl

/-- C2: hash-cons uniqueness over every reachable arena state — two distinct
application ids never carry the same `(left, right)` pair — and,
equivalently, a second `allocCons` call on the children of an existing
application returns the existing id (with the arena unchanged) rather than
allocating a new node. -/
theorem C2_hashcons_unique : ∀ (A : Arena), Reachable A →
    (∀ i j, i < A.top → j < A.top → i ≠ j → A.kind i = KIND_NONTERM →
      A.kind j = KIND_NONTERM → (A.left i, A.right i) ≠ (A.left j, A.right j)) ∧
    (∀ l r i, i < A.top → A.kind i = KIND_NONTERM → A.left i = l → A.right i = r →
      allocCons A l r = some (i, A)) := by
  intro A hA
  have hInv := reachable_inv hA
  constructor
  · intro i j hi hj hij hki hkj hpair
    rw [Prod.mk.injEq] at hpair
    exact hij (hInv.uniq i j hi hj hki hkj hpair.1 hpair.2)
  · intro l r i hi hk hli hri
    exact allocCons_existing hInv hi hk hli hri

/-- Witness for C2 on the C1 scenario arena: the applications `(I S)` (id 2,
pair (1, 0)) and `(I (I S))` (id 3, pair (1, 2)) have distinct pairs, and
re-allocating `(1, 2)` returns the existing id 3 with the arena unchanged. -/
theorem C2_hashcons_unique_witness :
    (c1Arena.left 2, c1Arena.right 2) ≠ (c1Arena.left 3, c1Arena.right 3) ∧
    allocCons c1Arena 1 2 = some (3, c1Arena) := by
  have hthm := C2_hashcons_unique c1Arena c1Arena_reachable
  exact ⟨hthm.1 2 3 (by decide) (by decide) (by decide) (by decide) (by decide),
    hthm.2 1 2 3 (by decide) (by decide) (by decide) (by decide)⟩

/-- C5: after a resize, every previously allocated node id returns the same
`kind/sym/left/right` through the accessors as before, and the rebuilt
hash-cons index still deduplicates: `allocCons` on the children of a
pre-resize application returns that application's id, unchanged state. -/
theorem C5_growth_preservation : ∀ (A A1 : Arena), Reachable A → grow A = some A1 →
    (∀ i, i < A.top → kindOf A1 i = kindOf A i ∧ symOf A1 i = symOf A i ∧
      leftOf A1 i = leftOf A i ∧ rightOf A1 i = rightOf A i) ∧
    (∀ l r i, i < A.top → A.kind i = KIND_NONTERM → A.left i = l → A.right i = r →
      allocCons A1 l r = some (i, A1)) := by
  intro A A1 hA hg
  have hInv := reachable_inv hA
  obtain ⟨hI1, h1top, h1lt, _, _, hpres⟩ := grow_spec hInv hg
  constructor
  · intro i hi
    have hicap : i < A.capacity := lt_of_lt_of_le hi hInv.topLe
    have hicap1 : i < A1.capacity := by omega
    obtain ⟨p1, p2, p3, p4, _⟩ := hpres i hi
    rw [kindOf_lt hicap, kindOf_lt hicap1, symOf_lt hicap, symOf_lt hicap1,
      leftOf_lt hicap, leftOf_lt hicap1, rightOf_lt hicap, rightOf_lt hicap1]
    exact ⟨p1, p2, p3, p4⟩
  · intro l r i hi hk hli hri
    have hi1 : i < A1.top := by omega
    obtain ⟨p1, _, p3, p4, _⟩ := hpres i hi
    exact allocCons_existing hI1 hi1 (p1.trans hk) (p3.trans hli) (p4.trans hri)

/-- Witness for C5: growing the C1 scenario arena preserves the accessor
values of the application `(I S)` (id 2) and still deduplicates the pair
`(1, 2)` to the existing id 3. -/
theorem C5_growth_preservation_witness :
    kindOf ((grow c1Arena).get!) 2 = kindOf c1Arena 2 ∧
    allocCons ((grow c1Arena).get!) 1 2 = some (3, (grow c1Arena).get!) := by
  have hthm := C5_growth_preservation c1Arena ((grow c1Arena).get!) c1Arena_reachable rfl
  exact ⟨(hthm.1 2 (by decide)).1,
    hthm.2 1 2 3 (by decide) (by decide) (by decide) (by decide)⟩

theorem StackRep_EMPTY_nil {A : Arena} {fs : List Nat} (h : StackRep A EMPTY fs) :
    fs = [] := by
  cases h with
  | nil => rfl
  | cons f fs hne => exact absurd rfl hne

theorem StackRep_cons_facts {A : Arena} {s g : Nat} {gs : List Nat}
    (h : StackRep A s (g :: gs)) :
    s = g ∧ g ≠ EMPTY ∧ g < A.top ∧ A.kind g = KIND_CONTINUATION ∧
    (A.sym g = STAGE_LEFT ∨ A.sym g = STAGE_RIGHT) ∧ A.right g < A.top ∧
    A.kind (A.right g) = KIND_NONTERM ∧
    (∀ g2 gs2, gs = g2 :: gs2 → A.right g = stageChild A g2) ∧
    StackRep A (A.left g) gs := by
  cases h with
  | cons f fs hne hlt hk hst hp hpk hlink htail =>
    exact ⟨rfl, hne, hlt, hk, hst, hp, hpk, hlink, htail⟩

theorem StackRep_shape {A : Arena} {s : Nat} {fs : List Nat} (h : StackRep A s fs)
    (hs : s ≠ EMPTY) : ∃ gs, fs = s :: gs := by
  cases h with
  | nil => exact absurd rfl hs
  | cons f fs _ _ _ _ _ _ _ _ => exact ⟨fs, rfl⟩

theorem StackRep_det {A : Arena} {s : Nat} {fs : List Nat} (h : StackRep A s fs) :
    ∀ {fs2 : List Nat}, StackRep A s fs2 → fs = fs2 := by
  induction h with
  | nil =>
    intro fs2 h2
    exact (StackRep_EMPTY_nil h2).symm
  | cons f fs hne hlt hk hst hp hpk hlink htail ih =>
    intro fs2 h2
    cases h2 with
    | nil => exact absurd rfl hne
    | cons _ fs3 _ _ _ _ _ _ _ htail2 =>
      rw [ih htail2]

theorem StackRep_mem {A : Arena} {s : Nat} {fs : List Nat} (h : StackRep A s fs) :
    ∀ g, g ∈ fs → ∃ gs, StackRep A g (g :: gs) ∧ (g :: gs).length ≤ fs.length := by
  induction h with
  | nil =>
    intro g hg
    exact absurd hg (List.not_mem_nil g)
  | cons f fs hne hlt hk hst hp hpk hlink htail ih =>
    intro g hg
    rcases List.mem_cons.mp hg with hgf | hgfs
    · subst hgf
      exact ⟨fs, .cons g fs hne hlt hk hst hp hpk hlink htail, le_refl _⟩
    · obtain ⟨gs, hrep, hlen⟩ := ih g hgfs
      exact ⟨gs, hrep, le_trans hlen (by simp)⟩

theorem StackRep_head_not_mem {A : Arena} {f : Nat} {fs : List Nat}
    (h : StackRep A f (f :: fs)) : f ∉ fs := by
  intro hmem
  obtain ⟨-, -, -, -, -, -, -, -, htail⟩ := StackRep_cons_facts h
  obtain ⟨gs, hrep, hlen⟩ := StackRep_mem htail f hmem
  have := StackRep_det h hrep
  injection this with _ h2
  rw [h2] at hlen
  simp at hlen

theorem stageChild_pres {A A1 : Arena} (hpres : PresBelow A A1) {g : Nat}
    (hg : g < A.top) (hpg : A.right g < A.top) : stageChild A1 g = stageChild A g := by
  obtain ⟨-, hf⟩ := hpres
  obtain ⟨-, hs, -, hr⟩ := hf g hg
  obtain ⟨-, -, hl2, hr2⟩ := hf (A.right g) hpg
  unfold stageChild
  rw [hs, hr]
  by_cases hsym : A.sym g = STAGE_LEFT
  · rw [if_pos hsym, if_pos hsym, hl2]
  · rw [if_neg hsym, if_neg hsym, hr2]

theorem StackRep_transfer {A A1 : Arena} (hpres : PresBelow A A1) {s : Nat} {fs : List Nat}
    (h : StackRep A s fs) : StackRep A1 s fs := by
  induction h with
  | nil => exact .nil
  | cons f fs hne hlt hk hst hp hpk hlink htail ih =>
    obtain ⟨htop, hf⟩ := hpres
    obtain ⟨k1, k2, k3, k4⟩ := hf f hlt
    refine .cons f fs hne (by omega) (k1.trans hk) (by rw [k2]; exact hst)
      (by rw [k4]; omega) (by rw [k4]; exact ((hf (A.right f) hp).1).trans hpk) ?_ ?_
    · intro g gs hgs
      obtain ⟨-, -, hg2, -, -, hpg2, -, -, -⟩ := StackRep_cons_facts (hgs ▸ htail)
      rw [k4, stageChild_pres ⟨htop, hf⟩ hg2 hpg2]
      exact hlink g gs hgs
    · rw [k3]
      exact ih

theorem stageChild_update {A : Arena} {x p t st g : Nat} (hgx : g ≠ x)
    (hpx : A.right g ≠ x) : stageChild (updateContinuation A x p t st) g = stageChild A g := by
  unfold stageChild updateContinuation
  show (if upd A.sym x st g = STAGE_LEFT then
      upd A.left x p (upd A.right x t g) else upd A.right x t (upd A.right x t g)) = _
  rw [upd_ne _ _ hgx, upd_ne _ _ hgx]
  by_cases hsym : A.sym g = STAGE_LEFT
  · rw [if_pos hsym, if_pos hsym, upd_ne _ _ hpx]
  · rw [if_neg hsym, if_neg hsym, upd_ne _ _ hpx]

theorem StackRep_update {A : Arena} {x p t st s : Nat} {fs : List Nat}
    (h : StackRep A s fs) (hknt : A.kind x ≠ KIND_NONTERM) :
    x ∉ fs → StackRep (updateContinuation A x p t st) s fs := by
  induction h with
  | nil => exact fun _ => .nil
  | cons f fs hne hlt hk hst hp hpk hlink htail ih =>
    intro hx
    have hxf : x ≠ f := fun hh => hx (hh ▸ List.mem_cons_self f fs)
    have hxfs : x ∉ fs := fun hh => hx (List.mem_cons_of_mem f hh)
    have hfx : f ≠ x := fun hh => hxf hh.symm
    have hpfx : A.right f ≠ x := by
      intro hh
      rw [hh] at hpk
      exact hknt hpk
    refine .cons f fs hne hlt ((upd_ne _ _ hfx).trans hk)
      (by rw [show (updateContinuation A x p t st).sym f = A.sym f from upd_ne _ _ hfx]
          exact hst)
      (by rw [show (updateContinuation A x p t st).right f = A.right f from upd_ne _ _ hfx]
          exact hp)
      (by rw [show (updateContinuation A x p t st).right f = A.right f from upd_ne _ _ hfx,
           show (updateContinuation A x p t st).kind (A.right f) = A.kind (A.right f) from
             upd_ne _ _ hpfx]
          exact hpk) ?_ ?_
    · intro g gs hgs
      have hgmem : g ∈ fs := hgs ▸ List.mem_cons_self g gs
      have hgx : g ≠ x := fun hh => hxfs (hh ▸ hgmem)
      obtain ⟨-, -, -, -, -, -, hpkg, -, -⟩ := StackRep_cons_facts (hgs ▸ htail)
      have hpgx : A.right g ≠ x := by
        intro hh
        rw [hh] at hpkg
        exact hknt hpkg
      rw [show (updateContinuation A x p t st).right f = A.right f from upd_ne _ _ hfx,
        stageChild_update hgx hpgx]
      exact hlink g gs hgs
    · rw [show (updateContinuation A x p t st).left f = A.left f from upd_ne _ _ hfx]
      exact ih hxfs

theorem StepOK_weaken {t1 t2 b1 b2 : Nat} (ht : t1 ≤ t2) (hb : b1 ≤ b2)
    {o : Option (StepRes × Arena × Nat × Nat)} (h : StepOK t2 o b1) : StepOK t1 o b2 := by
  cases o with
  | none => exact trivial
  | some x =>
    obtain ⟨res, A1, rem1, cnt⟩ := x
    obtain ⟨h1, h2, h3, h4⟩ := h
    exact ⟨h1, le_trans ht h2, le_trans h3 hb, h4⟩

theorem StepOK_bump {t b : Nat} {o : Option (StepRes × Arena × Nat × Nat)}
    (h : StepOK t o b) : StepOK t (bumpCount o) (b + 1) := by
  cases o with
  | none => exact trivial
  | some x =>
    obtain ⟨res, A1, rem1, cnt⟩ := x
    obtain ⟨h1, h2, h3, h4⟩ := h
    exact ⟨h1, h2, by show cnt + 1 ≤ b + 1; omega, h4⟩

/-- Invariant and `top` monotonicity of a suspension allocation. -/
theorem allocSuspension_post {A : Arena} {c st m rem sid : Nat} {A1 : Arena}
    (hInv : ArenaInv A) (h : allocSuspension A c st m rem = some (sid, A1)) :
    ArenaInv A1 ∧ A.top ≤ A1.top := by
  rw [allocSuspension] at h
  obtain ⟨h1, -, h3, -⟩ := allocGeneric_spec hInv (by decide) h
  exact ⟨h1, by omega⟩

/-- Postconditions of a continuation allocation. -/
theorem allocContinuation_post {A : Arena} {p t st fid : Nat} {A1 : Arena}
    (hInv : ArenaInv A) (h : allocContinuation A p t st = some (fid, A1)) :
    ArenaInv A1 ∧ fid = A.top ∧ A1.top = A.top + 1 ∧ fid ≠ EMPTY ∧
    A1.kind fid = KIND_CONTINUATION ∧ A1.sym fid = st ∧ A1.left fid = p ∧
    A1.right fid = t ∧ PresBelow A A1 := by
  rw [allocContinuation] at h
  obtain ⟨h1, h2, h3, h4, h5, h6, h7, h8, -, h9⟩ := allocGeneric_spec hInv (by decide) h
  exact ⟨h1, h2, h3, h4, h5, h6, h7, h8, ⟨by omega, fun i hi =>
    ⟨(h9 i hi).1, (h9 i hi).2.1, (h9 i hi).2.2.1, (h9 i hi).2.2.2.1⟩⟩⟩

/-- PresBelow packaging of `allocCons_spec`. -/
theorem allocCons_pres {A : Arena} {l r id : Nat} {A1 : Arena} (hInv : ArenaInv A)
    (hl : l < A.top) (hr : r < A.top) (h : allocCons A l r = some (id, A1)) :
    PresBelow A A1 := by
  obtain ⟨-, h2, -, -, -, -, -, h8⟩ := allocCons_spec hInv hl hr h
  exact ⟨h2, fun i hi => ⟨(h8 i hi).1, (h8 i hi).2.1, (h8 i hi).2.2.1, (h8 i hi).2.2.2.1⟩⟩

/-- The dirty phase of one reducer call: once the current node differs from
the stage child of the top frame (the mark a completed rewrite leaves), the
call only pops and rebuilds — it performs no further rule application. -/
theorem step_dirty : ∀ (gas : Nat) (A : Arena) (curr stack rem free : Nat) (fs : List Nat),
    ArenaInv A → StackRep A stack fs → curr < A.top →
    (∀ g gs, fs = g :: gs → curr ≠ stageChild A g) →
    StepOK A.top (stepIterative gas A curr stack MODE_RETURN rem free) 0 := by
  intro gas
  induction gas with
  | zero =>
    intro A curr stack rem free fs hInv hrep hcurr hdirty
    rw [stepIterative]
    cases hsusp : allocSuspension A curr stack MODE_RETURN rem with
    | none => exact trivial
    | some p =>
      obtain ⟨sid, A1⟩ := p
      simp only [Option.some_bind]
      obtain ⟨h1, h2⟩ := allocSuspension_post hInv hsusp
      exact ⟨h1, h2, le_refl _, fun x hx => by cases hx⟩
  | succ g ih =>
    intro A curr stack rem free fs hInv hrep hcurr hdirty
    rw [stepIterative]
    rw [if_pos (rfl : MODE_RETURN = MODE_RETURN)]
    by_cases hstk : stack = EMPTY
    · rw [if_pos hstk]
      exact ⟨hInv, le_refl _, le_refl _, fun x hx => by injection hx with hx; omega⟩
    · rw [if_neg hstk]
      obtain ⟨fs2, hfs⟩ := StackRep_shape hrep hstk
      subst hfs
      obtain ⟨-, -, hflt, -, hst, hp, hpk, hlink, htail⟩ := StackRep_cons_facts hrep
      have hfcap : stack < A.capacity := lt_of_lt_of_le hflt hInv.topLe
      have hpcap : A.right stack < A.capacity := lt_of_lt_of_le hp hInv.topLe
      have hdhead := hdirty stack fs2 rfl
      have hlval : leftOf A stack = A.left stack := leftOf_lt hfcap
      have hrval : rightOf A stack = A.right stack := rightOf_lt hfcap
      have hsval : symOf A stack = A.sym stack := symOf_lt hfcap
      have hstrict := hInv.strict (A.right stack) hpk
      by_cases hstage : symOf A stack = STAGE_LEFT
      · rw [if_pos hstage]
        have hsc : stageChild A stack = A.left (A.right stack) := by
          unfold stageChild
          rw [if_pos (hsval ▸ hstage)]
        have hcond : curr ≠ leftOf A (rightOf A stack) := by
          rw [hrval, leftOf_lt hpcap, ← hsc]
          exact hdhead
        rw [if_pos hcond]
        cases hcons : allocCons A curr (rightOf A (rightOf A stack)) with
        | none => exact trivial
        | some p =>
          obtain ⟨c2, A2⟩ := p
          simp only [Option.some_bind]
          have hrr : rightOf A (rightOf A stack) = A.right (A.right stack) := by
            rw [hrval, rightOf_lt hpcap]
          rw [hrr] at hcons
          have hrlt : A.right (A.right stack) < A.top := lt_trans hstrict.2 hp
          obtain ⟨hI2, htop2, hc2lt, -, hc2k, hc2l, hc2r, hpres⟩ :=
            allocCons_spec hInv hcurr hrlt hcons
          have hpb : PresBelow A A2 := allocCons_pres hInv hcurr hrlt hcons
          have hrep2 : StackRep A2 (A.left stack) fs2 := StackRep_transfer hpb htail
          have hdirty2 : ∀ g2 gs2, fs2 = g2 :: gs2 → c2 ≠ stageChild A2 g2 := by
            intro g2 gs2 hgs
            obtain ⟨-, -, hg2, -, -, hpg2, -, -, -⟩ := StackRep_cons_facts (hgs ▸ htail)
            rw [stageChild_pres hpb hg2 hpg2, ← hlink g2 gs2 hgs]
            intro hh
            have : A2.left c2 = A2.left (A.right stack) := by rw [hh]
            rw [hc2l, (hpb.2 (A.right stack) hp).2.2.1] at this
            rw [← hsc] at this
            exact hdhead this
          have hres := ih A2 c2 (A.left stack) rem stack fs2 hI2 hrep2 hc2lt hdirty2
          rw [hlval]
          exact StepOK_weaken htop2 (le_refl _) hres
      · rw [if_neg hstage]
        have hsc : stageChild A stack = A.right (A.right stack) := by
          unfold stageChild
          rw [if_neg (by rw [← hsval]; exact hstage)]
        have hcond : curr ≠ rightOf A (rightOf A stack) := by
          rw [hrval, rightOf_lt hpcap, ← hsc]
          exact hdhead
        rw [if_pos hcond]
        cases hcons : allocCons A (leftOf A (rightOf A stack)) curr with
        | none => exact trivial
        | some p =>
          obtain ⟨c2, A2⟩ := p
          simp only [Option.some_bind]
          have hll : leftOf A (rightOf A stack) = A.left (A.right stack) := by
            rw [hrval, leftOf_lt hpcap]
          rw [hll] at hcons
          have hllt : A.left (A.right stack) < A.top := lt_trans hstrict.1 hp
          obtain ⟨hI2, htop2, hc2lt, -, hc2k, hc2l, hc2r, hpres⟩ :=
            allocCons_spec hInv hllt hcurr hcons
          have hpb : PresBelow A A2 := allocCons_pres hInv hllt hcurr hcons
          have hrep2 : StackRep A2 (A.left stack) fs2 := StackRep_transfer hpb htail
          have hdirty2 : ∀ g2 gs2, fs2 = g2 :: gs2 → c2 ≠ stageChild A2 g2 := by
            intro g2 gs2 hgs
            obtain ⟨-, -, hg2, -, -, hpg2, -, -, -⟩ := StackRep_cons_facts (hgs ▸ htail)
            rw [stageChild_pres hpb hg2 hpg2, ← hlink g2 gs2 hgs]
            intro hh
            have : A2.right c2 = A2.right (A.right stack) := by rw [hh]
            rw [hc2r, (hpb.2 (A.right stack) hp).2.2.2] at this
            rw [← hsc] at this
            exact hdhead this
          have hres := ih A2 c2 (A.left stack) rem stack fs2 hI2 hrep2 hc2lt hdirty2
          rw [hlval]
          exact StepOK_weaken htop2 (le_refl _) hres

theorem PresBelow_trans {A B C : Arena} (h1 : PresBelow A B) (h2 : PresBelow B C) :
    PresBelow A C := by
  obtain ⟨t1, f1⟩ := h1
  obtain ⟨t2, f2⟩ := h2
  refine ⟨le_trans t1 t2, fun i hi => ?_⟩
  obtain ⟨a1, a2, a3, a4⟩ := f1 i hi
  obtain ⟨b1, b2, b3, b4⟩ := f2 i (by omega)
  exact ⟨b1.trans a1, b2.trans a2, b3.trans a3, b4.trans a4⟩

/-- The clean phase of one reducer call from a state whose current node is
the stage child of the top frame (or whose stack is empty): the call performs
at most one rule application in total.  After the first rewrite the current
node differs from every enclosing frame's stage child (acyclicity: children
have strictly smaller ids; hash-consing: a rebuilt application with a changed
child is a different id), so the remainder of the call is the dirty phase. -/
theorem step_clean : ∀ (gas : Nat) (A : Arena) (curr stack mode rem free : Nat)
    (fs : List Nat),
    ArenaInv A → StackRep A stack fs → curr < A.top →
    (∀ g gs, fs = g :: gs → curr = stageChild A g) →
    FreeOK A free fs →
    StepOK A.top (stepIterative gas A curr stack mode rem free) 1 := by
  intro gas
  induction gas with
  | zero =>
    intro A curr stack mode rem free fs hInv hrep hcurr hclean hfree
    rw [stepIterative]
    cases hsusp : allocSuspension A curr stack mode rem with
    | none => exact trivial
    | some p =>
      obtain ⟨sid, A1⟩ := p
      simp only [Option.some_bind]
      obtain ⟨h1, h2⟩ := allocSuspension_post hInv hsusp
      exact ⟨h1, h2, by omega, fun x hx => by cases hx⟩
  | succ g ih =>
    intro A curr stack mode rem free fs hInv hrep hcurr hclean hfree
    have hccap : curr < A.capacity := lt_of_lt_of_le hcurr hInv.topLe
    rw [stepIterative]
    by_cases hmode : mode = MODE_RETURN
    · rw [if_pos hmode]
      by_cases hstk : stack = EMPTY
      · rw [if_pos hstk]
        exact ⟨hInv, le_refl _, by omega, fun x hx => by injection hx with hx; omega⟩
      · rw [if_neg hstk]
        obtain ⟨fs2, hfs⟩ := StackRep_shape hrep hstk
        subst hfs
        obtain ⟨-, -, hflt, hfk, hst, hp, hpk, hlink, htail⟩ := StackRep_cons_facts hrep
        have hfcap : stack < A.capacity := lt_of_lt_of_le hflt hInv.topLe
        have hpcap : A.right stack < A.capacity := lt_of_lt_of_le hp hInv.topLe
        have hchead := hclean stack fs2 rfl
        have hlval : leftOf A stack = A.left stack := leftOf_lt hfcap
        have hrval : rightOf A stack = A.right stack := rightOf_lt hfcap
        have hsval : symOf A stack = A.sym stack := symOf_lt hfcap
        have hstrict := hInv.strict (A.right stack) hpk
        have hnotmem : stack ∉ fs2 := StackRep_head_not_mem hrep
        have hpne : A.right stack ≠ stack := by
          intro hh
          rw [hh] at hpk
          rw [hpk] at hfk
          exact absurd hfk (by decide)
        by_cases hstage : symOf A stack = STAGE_LEFT
        · rw [if_pos hstage]
          have hsc : stageChild A stack = A.left (A.right stack) := by
            unfold stageChild
            rw [if_pos (hsval ▸ hstage)]
          have hcond : ¬ (curr ≠ leftOf A (rightOf A stack)) := by
            rw [hrval, leftOf_lt hpcap, ← hsc]
            exact fun hh => hh hchead
          rw [if_neg hcond]
          set A2 := updateContinuation A stack (leftOf A stack) (rightOf A stack) STAGE_RIGHT
            with hA2
          have hI2 : ArenaInv A2 := updateContinuation_inv hInv _ _ _ _
          have hk2 : A2.kind stack = KIND_CONTINUATION := upd_same _ _ _
          have hs2 : A2.sym stack = STAGE_RIGHT := upd_same _ _ _
          have hr2 : A2.right stack = rightOf A stack := upd_same _ _ _
          have hl2 : A2.left stack = leftOf A stack := upd_same _ _ _
          have hfields2 : ∀ i, i ≠ stack → A2.kind i = A.kind i ∧ A2.sym i = A.sym i ∧
              A2.left i = A.left i ∧ A2.right i = A.right i := fun i hi =>
            ⟨upd_ne _ _ hi, upd_ne _ _ hi, upd_ne _ _ hi, upd_ne _ _ hi⟩
          have hrep2 : StackRep A2 stack (stack :: fs2) := by
            refine .cons stack fs2 hstk hflt hk2 (Or.inr hs2)
              (by rw [hr2, hrval]; exact hp)
              (by rw [hr2, hrval, (hfields2 (A.right stack) hpne).1]; exact hpk) ?_ ?_
            · intro g2 gs2 hgs
              have hg2mem : g2 ∈ fs2 := hgs ▸ List.mem_cons_self g2 gs2
              have hg2ne : g2 ≠ stack := fun hh => hnotmem (hh ▸ hg2mem)
              obtain ⟨-, -, -, -, -, -, hpkg2, -, -⟩ := StackRep_cons_facts (hgs ▸ htail)
              have hpg2ne : A.right g2 ≠ stack := by
                intro hh
                rw [hh] at hpkg2
                rw [hpkg2] at hfk
                exact absurd hfk (by decide)
              rw [hr2, hrval, hA2, stageChild_update hg2ne hpg2ne]
              exact hlink g2 gs2 hgs
            · rw [hl2, hlval, hA2]
              refine StackRep_update htail ?_ hnotmem
              rw [hfk]
              decide
          have hcurr2 : rightOf A (rightOf A stack) < A.top := by
            rw [hrval, rightOf_lt hpcap]
            omega
          have hclean2 : ∀ g2 gs2, (stack :: fs2) = g2 :: gs2 →
              rightOf A (rightOf A stack) = stageChild A2 g2 := by
            intro g2 gs2 hgs
            injection hgs with hg2 hgs2
            subst hg2
            unfold stageChild
            rw [hs2, if_neg (by decide : ¬ (STAGE_RIGHT = STAGE_LEFT)), hr2, hrval,
              (hfields2 (A.right stack) hpne).2.2.2, rightOf_lt hpcap]
          have hfree2 : FreeOK A2 free (stack :: fs2) := by
            rcases hfree with hf | ⟨hf1, hf2, hf3⟩
            · exact Or.inl hf
            · have hfne : free ≠ stack := fun hh => hf3 (hh ▸ List.mem_cons_self stack fs2)
              refine Or.inr ⟨hf1, ?_, hf3⟩
              rw [(hfields2 free hfne).1]
              exact hf2
          have hres := ih A2 (rightOf A (rightOf A stack)) stack MODE_DESCEND rem free
            (stack :: fs2) hI2 hrep2 hcurr2 hclean2 hfree2
          exact StepOK_weaken (le_refl _) (le_refl _) hres
        · rw [if_neg hstage]
          have hsc : stageChild A stack = A.right (A.right stack) := by
            unfold stageChild
            rw [if_neg (by rw [← hsval]; exact hstage)]
          have hcond : ¬ (curr ≠ rightOf A (rightOf A stack)) := by
            rw [hrval, rightOf_lt hpcap, ← hsc]
            exact fun hh => hh hchead
          rw [if_neg hcond]
          have hclean2 : ∀ g2 gs2, fs2 = g2 :: gs2 →
              rightOf A stack = stageChild A g2 := by
            intro g2 gs2 hgs
            rw [hrval]
            exact hlink g2 gs2 hgs
          have hfree2 : FreeOK A stack fs2 := by
            refine Or.inr ⟨hflt, ?_, hnotmem⟩
            rw [hfk]
            decide
          have hres := ih A (rightOf A stack) (leftOf A stack) MODE_RETURN rem stack fs2
            hInv (by rw [hlval]; exact htail) (by rw [hrval]; exact hp) hclean2 hfree2
          exact hres
    · rw [if_neg hmode]
      by_cases hknt : kindOf A curr ≠ KIND_NONTERM
      · rw [if_pos hknt]
        exact ih A curr stack MODE_RETURN rem free fs hInv hrep hcurr hclean hfree
      · rw [if_neg hknt]
        push_neg at hknt
        have hkc : A.kind curr = KIND_NONTERM := by
          rw [kindOf_lt hccap] at hknt
          exact hknt
        have hstrictc := hInv.strict curr hkc
        have hlv : leftOf A curr = A.left curr := leftOf_lt hccap
        have hrv : rightOf A curr = A.right curr := rightOf_lt hccap
        have hdirtyR : ∀ c2, c2 ≠ curr → (∀ g2 gs2, fs = g2 :: gs2 → c2 ≠ stageChild A g2) := by
          intro c2 hne g2 gs2 hgs
          rw [← hclean g2 gs2 hgs]
          exact hne
        by_cases hI : kindOf A (leftOf A curr) = KIND_TERMINAL ∧
            symOf A (leftOf A curr) = SYM_I
        · rw [if_pos hI]
          by_cases hrem : rem = 0
          · rw [if_pos hrem]
            cases hsusp : allocSuspension A curr stack mode 0 with
            | none => exact trivial
            | some p =>
              obtain ⟨sid, A1⟩ := p
              simp only [Option.some_bind]
              obtain ⟨h1, h2⟩ := allocSuspension_post hInv hsusp
              exact ⟨h1, h2, by omega, fun x hx => by cases hx⟩
          · rw [if_neg hrem]
            have hcurr2 : rightOf A curr < A.top := by
              rw [hrv]
              omega
            by_cases hrem1 : rem - 1 = 0
            · rw [if_pos hrem1]
              cases hsusp : allocSuspension A (rightOf A curr) stack MODE_RETURN 0 with
              | none => exact trivial
              | some p =>
                obtain ⟨sid, A1⟩ := p
                simp only [Option.some_bind]
                obtain ⟨h1, h2⟩ := allocSuspension_post hInv hsusp
                exact ⟨h1, h2, by omega, fun x hx => by cases hx⟩
            · rw [if_neg hrem1]
              refine StepOK_bump (step_dirty g A (rightOf A curr) stack (rem - 1) free fs
                hInv hrep hcurr2 (hdirtyR _ ?_))
              rw [hrv]
              omega
        · rw [if_neg hI]
          by_cases hK : kindOf A (leftOf A curr) = KIND_NONTERM ∧
              kindOf A (leftOf A (leftOf A curr)) = KIND_TERMINAL ∧
              symOf A (leftOf A (leftOf A curr)) = SYM_K
          · rw [if_pos hK]
            have hlcap : A.left curr < A.capacity := by omega
            have hklnt : A.kind (A.left curr) = KIND_NONTERM := by
              have hh := hK.1
              rw [hlv, kindOf_lt hlcap] at hh
              exact hh
            have hstrictl := hInv.strict (A.left curr) hklnt
            by_cases hrem : rem = 0
            · rw [if_pos hrem]
              cases hsusp : allocSuspension A curr stack mode 0 with
              | none => exact trivial
              | some p =>
                obtain ⟨sid, A1⟩ := p
                simp only [Option.some_bind]
                obtain ⟨h1, h2⟩ := allocSuspension_post hInv hsusp
                exact ⟨h1, h2, by omega, fun x hx => by cases hx⟩
            · rw [if_neg hrem]
              have hcurr2 : rightOf A (leftOf A curr) < A.top := by
                rw [hlv, rightOf_lt hlcap]
                omega
              by_cases hrem1 : rem - 1 = 0
              · rw [if_pos hrem1]
                cases hsusp : allocSuspension A (rightOf A (leftOf A curr)) stack
                    MODE_RETURN 0 with
                | none => exact trivial
                | some p =>
                  obtain ⟨sid, A1⟩ := p
                  simp only [Option.some_bind]
                  obtain ⟨h1, h2⟩ := allocSuspension_post hInv hsusp
                  exact ⟨h1, h2, by omega, fun x hx => by cases hx⟩
              · rw [if_neg hrem1]
                refine StepOK_bump (step_dirty g A (rightOf A (leftOf A curr)) stack
                  (rem - 1) free fs hInv hrep hcurr2 (hdirtyR _ ?_))
                rw [hlv, rightOf_lt hlcap]
                omega
          · rw [if_neg hK]
            by_cases hS : kindOf A (leftOf A curr) = KIND_NONTERM ∧
                kindOf A (leftOf A (leftOf A curr)) = KIND_NONTERM ∧
                kindOf A (leftOf A (leftOf A (leftOf A curr))) = KIND_TERMINAL ∧
                symOf A (leftOf A (leftOf A (leftOf A curr))) = SYM_S
            · rw [if_pos hS]
              by_cases hrem : rem = 0
              · rw [if_pos hrem]
                cases hsusp : allocSuspension A curr stack mode 0 with
                | none => exact trivial
                | some p =>
                  obtain ⟨sid, A1⟩ := p
                  simp only [Option.some_bind]
                  obtain ⟨h1, h2⟩ := allocSuspension_post hInv hsusp
                  exact ⟨h1, h2, by omega, fun x hx => by cases hx⟩
              · rw [if_neg hrem]
                have hlcap : A.left curr < A.capacity := by omega
                have hklnt : A.kind (A.left curr) = KIND_NONTERM := by
                  have hh := hS.1
                  rw [hlv, kindOf_lt hlcap] at hh
                  exact hh
                have hstrictl := hInv.strict (A.left curr) hklnt
                have hllv : leftOf A (leftOf A curr) = A.left (A.left curr) := by
                  rw [hlv, leftOf_lt hlcap]
                have hllcap : A.left (A.left curr) < A.capacity := by omega
                have hkllnt : A.kind (A.left (A.left curr)) = KIND_NONTERM := by
                  have hh := hS.2.1
                  rw [hllv, kindOf_lt hllcap] at hh
                  exact hh
                have hstrictll := hInv.strict (A.left (A.left curr)) hkllnt
                have hxval : rightOf A (leftOf A (leftOf A curr)) =
                    A.right (A.left (A.left curr)) := by
                  rw [hllv, rightOf_lt hllcap]
                have hx : A.right (A.left (A.left curr)) < A.top := by omega
                have hyval : rightOf A (leftOf A curr) = A.right (A.left curr) := by
                  rw [hlv, rightOf_lt hlcap]
                have hy : A.right (A.left curr) < A.top := by omega
                have hz : A.right curr < A.top := by omega
                cases h1 : allocCons A (rightOf A (leftOf A (leftOf A curr)))
                    (rightOf A curr) with
                | none => exact trivial
                | some p1 =>
                  obtain ⟨xz, A1⟩ := p1
                  simp only [Option.some_bind]
                  obtain ⟨hI1, htop1, hxzlt, -, -, -, -, -⟩ :=
                    allocCons_spec hInv (by rw [hxval]; exact hx) (by rw [hrv]; exact hz) h1
                  have hpb1 : PresBelow A A1 := allocCons_pres hInv
                    (by rw [hxval]; exact hx) (by rw [hrv]; exact hz) h1
                  cases h2 : allocCons A1 (rightOf A (leftOf A curr)) (rightOf A curr) with
                  | none => exact trivial
                  | some p2 =>
                    obtain ⟨yz, A2⟩ := p2
                    simp only [Option.some_bind]
                    obtain ⟨hI2, htop2, hyzlt, -, hyzk, -, hyzr, -⟩ :=
                      allocCons_spec hI1 (by rw [hyval]; omega) (by rw [hrv]; omega) h2
                    have hpb2 : PresBelow A1 A2 := allocCons_pres hI1
                      (by rw [hyval]; omega) (by rw [hrv]; omega) h2
                    cases h3 : allocCons A2 xz yz with
                    | none => exact trivial
                    | some p3 =>
                      obtain ⟨pnode, A3⟩ := p3
                      simp only [Option.some_bind]
                      obtain ⟨hI3, htop3, hplt, -, -, -, hpr, hpres3⟩ :=
                        allocCons_spec hI2 (by omega) hyzlt h3
                      have hpb3 : PresBelow A2 A3 := allocCons_pres hI2 (by omega) hyzlt h3
                      have hpbA3 : PresBelow A A3 :=
                        PresBelow_trans (PresBelow_trans hpb1 hpb2) hpb3
                      have htopA3 : A.top ≤ A3.top := hpbA3.1
                      have hpnec : pnode ≠ curr := by
                        intro hh
                        have hrc3 : A3.right curr = A.right curr :=
                          (hpbA3.2 curr hcurr).2.2.2
                        rw [hh] at hpr
                        rw [hpr] at hrc3
                        have hyzz : yz = A.right curr := hrc3
                        have hyzk2 : A2.kind (A.right curr) = KIND_NONTERM := hyzz ▸ hyzk
                        have hstr2 := (hI2.strict (A.right curr) hyzk2).2
                        rw [← hyzz, hyzr, hrv, hyzz] at hstr2
                        omega
                      have hrep3 : StackRep A3 stack fs := StackRep_transfer hpbA3 hrep
                      have hdirty3 : ∀ g2 gs2, fs = g2 :: gs2 →
                          pnode ≠ stageChild A3 g2 := by
                        intro g2 gs2 hgs
                        obtain ⟨-, -, hg2, -, -, hpg2, -, -, -⟩ :=
                          StackRep_cons_facts (hgs ▸ hrep)
                        rw [stageChild_pres hpbA3 hg2 hpg2, ← hclean g2 gs2 hgs]
                        exact hpnec
                      by_cases hrem1 : rem - 1 = 0
                      · rw [if_pos hrem1]
                        cases hsusp : allocSuspension A3 pnode stack MODE_RETURN 0 with
                        | none => exact trivial
                        | some p =>
                          obtain ⟨sid, A4⟩ := p
                          simp only [Option.some_bind]
                          obtain ⟨h1s, h2s⟩ := allocSuspension_post hI3 hsusp
                          exact ⟨h1s, by omega, by omega, fun x hx => by cases hx⟩
                      · rw [if_neg hrem1]
                        exact StepOK_weaken htopA3 (by omega)
                          (StepOK_bump (step_dirty g A3 pnode stack (rem - 1) free fs
                            hI3 hrep3 hplt hdirty3))
            · rw [if_neg hS]
              by_cases hfr : free ≠ EMPTY
              · rw [if_pos hfr]
                rcases hfree with hf | ⟨hf1, hf2, hf3⟩
                · exact absurd hf hfr
                set A2 := updateContinuation A free stack curr STAGE_LEFT with hA2
                have hI2 : ArenaInv A2 := updateContinuation_inv hInv _ _ _ _
                have hfields2 : ∀ i, i ≠ free → A2.kind i = A.kind i ∧
                    A2.sym i = A.sym i ∧ A2.left i = A.left i ∧ A2.right i = A.right i :=
                  fun i hi => ⟨upd_ne _ _ hi, upd_ne _ _ hi, upd_ne _ _ hi, upd_ne _ _ hi⟩
                have hcfne : curr ≠ free := by
                  intro hh
                  rw [hh] at hkc
                  exact hf2 hkc
                have hk2f : A2.kind free = KIND_CONTINUATION := upd_same _ _ _
                have hs2f : A2.sym free = STAGE_LEFT := upd_same _ _ _
                have hl2f : A2.left free = stack := upd_same _ _ _
                have hr2f : A2.right free = curr := upd_same _ _ _
                have hrep2 : StackRep A2 free (free :: fs) := by
                  refine .cons free fs hfr hf1 hk2f (Or.inl hs2f)
                    (by rw [hr2f]; exact hcurr)
                    (by rw [hr2f, (hfields2 curr hcfne).1]; exact hkc) ?_ ?_
                  · intro g2 gs2 hgs
                    have hg2ne : g2 ≠ free := fun hh =>
                      hf3 (hh ▸ (hgs ▸ List.mem_cons_self g2 gs2))
                    obtain ⟨-, -, -, -, -, -, hpkg2, -, -⟩ :=
                      StackRep_cons_facts (hgs ▸ hrep)
                    have hpg2ne : A.right g2 ≠ free := by
                      intro hh
                      rw [hh] at hpkg2
                      exact hf2 hpkg2
                    rw [hr2f, hA2, stageChild_update hg2ne hpg2ne]
                    exact hclean g2 gs2 hgs
                  · rw [hl2f, hA2]
                    exact StackRep_update hrep hf2 hf3
                have hclean2 : ∀ g2 gs2, (free :: fs) = g2 :: gs2 →
                    leftOf A curr = stageChild A2 g2 := by
                  intro g2 gs2 hgs
                  injection hgs with hg2 hgs2
                  subst hg2
                  unfold stageChild
                  rw [hs2f, if_pos rfl, hr2f, (hfields2 curr hcfne).2.2.1, hlv]
                have htA2 : A2.top = A.top := rfl
                have hres := ih A2 (leftOf A curr) free MODE_DESCEND rem EMPTY
                  (free :: fs) hI2 hrep2 (by rw [hlv, htA2]; omega) hclean2 (Or.inl rfl)
                exact StepOK_weaken (le_refl _) (le_refl _) hres
              · rw [if_neg hfr]
                push_neg at hfr
                cases halloc : allocContinuation A stack curr STAGE_LEFT with
                | none => exact trivial
                | some p =>
                  obtain ⟨fid, A2⟩ := p
                  simp only [Option.some_bind]
                  obtain ⟨hI2, hfid, htop2, hfidne, hk2, hs2, hl2, hr2, hpb⟩ :=
                    allocContinuation_post hInv halloc
                  have hrep2 : StackRep A2 fid (fid :: fs) := by
                    refine .cons fid fs hfidne (by omega) hk2 (Or.inl hs2)
                      (by rw [hr2]; omega)
                      (by rw [hr2, (hpb.2 curr hcurr).1]; exact hkc) ?_ ?_
                    · intro g2 gs2 hgs
                      obtain ⟨-, -, hg2, -, -, hpg2, -, -, -⟩ :=
                        StackRep_cons_facts (hgs ▸ hrep)
                      rw [hr2, stageChild_pres hpb hg2 hpg2]
                      exact hclean g2 gs2 hgs
                    · rw [hl2]
                      exact StackRep_transfer hpb hrep
                  have hclean2 : ∀ g2 gs2, (fid :: fs) = g2 :: gs2 →
                      leftOf A curr = stageChild A2 g2 := by
                    intro g2 gs2 hgs
                    injection hgs with hg2 hgs2
                    subst hg2
                    unfold stageChild
                    rw [hs2, if_pos rfl, hr2, (hpb.2 curr hcurr).2.2.1, hlv]
                  have hres := ih A2 (leftOf A curr) fid MODE_DESCEND rem free
                    (fid :: fs) hI2 hrep2 (by rw [hlv]; omega) hclean2 (Or.inl hfr)
                  exact StepOK_weaken (by omega) (le_refl _) hres

/-- One `step_internal` call preserves the invariant, grows `top` monotonically,
performs at most one rule application, and returns an allocated node. -/
theorem stepInternal_ok {A : Arena} {e : Nat} (hInv : ArenaInv A) (he : e < A.top)
    {x : Nat} {A1 : Arena} {c : Nat} (h : stepInternal A e = some (x, A1, c)) :
    ArenaInv A1 ∧ A.top ≤ A1.top ∧ c ≤ 1 ∧ x < A1.top := by
  have hok := step_clean U32_MAX A e EMPTY MODE_DESCEND U32_MAX EMPTY []
    hInv StackRep.nil he (fun g gs hgs => by cases hgs) (Or.inl rfl)
  rw [stepInternal] at h
  cases hsi : stepIterative U32_MAX A e EMPTY MODE_DESCEND U32_MAX EMPTY with
  | none =>
    rw [hsi] at h
    cases h
  | some q =>
    rw [hsi] at h
    rw [hsi] at hok
    obtain ⟨res, A2, rem2, cnt⟩ := q
    obtain ⟨h1, h2, h3, h4⟩ := hok
    cases res with
    | done y =>
      have h5 : some (y, A2, cnt) = some (x, A1, c) := h
      injection h5 with h6
      injection h6 with h7 h8
      injection h8 with h9 h10
      exact ⟨h9 ▸ h1, h9 ▸ h2, by omega, by rw [← h7, ← h9]; exact h4 y rfl⟩
    | yield s =>
      have h5 : some (e, A2, cnt) = some (x, A1, c) := h
      injection h5 with h6
      injection h6 with h7 h8
      injection h8 with h9 h10
      exact ⟨h9 ▸ h1, h9 ▸ h2, by omega, by rw [← h7, ← h9]; omega⟩

/-- The `reduce` loop performs at most `fuel` rule applications in total. -/
theorem reduceLoop_count : ∀ (fuel : Nat) (A : Arena) (cur : Nat), ArenaInv A →
    cur < A.top → ∀ res A1 c, reduceLoop fuel A cur = some (res, A1, c) → c ≤ fuel := by
  intro fuel
  induction fuel with
  | zero =>
    intro A cur hInv hcur res A1 c h
    rw [reduceLoop] at h
    injection h with h5
    injection h5 with h6 h7
    injection h7 with h8 h9
    omega
  | succ f ih =>
    intro A cur hInv hcur res A1 c h
    rw [reduceLoop] at h
    cases hsi : stepInternal A cur with
    | none =>
      rw [hsi] at h
      cases h
    | some p =>
      rw [hsi] at h
      obtain ⟨x, A2, cnt⟩ := p
      simp only [Option.some_bind] at h
      obtain ⟨hI2, htop2, hcnt, hxlt⟩ := stepInternal_ok hInv hcur hsi
      by_cases hfix : x = cur
      · rw [if_pos hfix] at h
        injection h with h5
        injection h5 with h6 h7
        injection h7 with h8 h9
        omega
      · rw [if_neg hfix] at h
        cases hrl : reduceLoop f A2 x with
        | none =>
          rw [hrl] at h
          cases h
        | some q =>
          rw [hrl] at h
          obtain ⟨y, A3, c3⟩ := q
          simp only [Option.some_bind] at h
          have hc3 := ih A2 x hI2 hxlt y A3 c3 hrl
          injection h with h5
          injection h5 with h6 h7
          injection h7 with h8 h9
          omega

/-- **C4**: step-count discipline of `reduce`: for every allocated expression
`e` of a reachable arena and every `n`, `reduce(e, n)` performs at most `n`
redex rewrites (applications of the I, K or S rule, counted by the ghost
rewrite counter); structural rebuilds of parent applications while unwinding
the continuation stack are not counted. -/
theorem C4_step_count (A : Arena) (e n res : Nat) (A1 : Arena) (c : Nat)
    (hR : Reachable A) (he : e < A.top)
    (h : reduce A e n = some (res, A1, c)) : c ≤ n := by
  have hInv : ArenaInv A := reachable_inv hR
  rw [reduce] at h
  have hlim : (if n = U32_MAX then U32_MAX else n) = n := by
    by_cases hn : n = U32_MAX
    · rw [if_pos hn, hn]
    · rw [if_neg hn]
  rw [hlim] at h
  exact reduceLoop_count n A e hInv he res A1 c h

theorem C4_step_count_witness :
    ((reduce c1Arena 0 2).get!).2.2 ≤ 2 :=
  C4_step_count c1Arena 0 2 ((reduce c1Arena 0 2).get!).1
    ((reduce c1Arena 0 2).get!).2.1 ((reduce c1Arena 0 2).get!).2.2
    c1Arena_reachable (by decide) (by rfl)
